import Mathlib

/-!
Verification of the OpenLP bibles-plugin scripture reference parser and its
supporting library code (`openlp/plugins/bibles/lib/__init__.py` and
`openlp/plugins/bibles/lib/manager.py`), as a shallow embedding in Lean.

Conventions of the embedding:
* Python ints arising from `[0-9]+` regex groups are modelled as `Nat`;
  the sentinel verse value `-1` forces `Int` where it can occur.
* A Python variable that may hold `None` or an int is an `Option Nat`;
  Python truthiness (`None` and `0` are falsy) is `truthyN`.
* The regular expressions are compiled with the default separators
  (`translate` is the identity when no translation is installed and the
  custom separator settings are empty, so `update_reference_separators`
  uses `default_separators`).  Python's `\s` and `\d` are Unicode-aware;
  they are modelled over the ASCII range here, which every claim and
  every concrete input below stays within.
-/

namespace VV

/-- Python truthiness of an int-or-None variable: `None` and `0` are falsy. -/
def truthyN : Option Nat → Bool
  | none => false
  | some n => n != 0

/-- The five named groups of the per-clause `range` regular expression,
after the `int(...)` conversions at lines 366-373 of `lib/__init__.py`:
`from_chapter`, `to_chapter`, `to_verse` are optional groups, `from_verse`
is mandatory, and `range_to` is kept only as presence (the group text is
never empty when it matches, so its truthiness is its presence). -/
structure RangeM where
  from_chapter : Option Nat
  from_verse : Nat
  range_to : Bool
  to_chapter : Option Nat
  to_verse : Option Nat
deriving DecidableEq

/-- One element of the reference list: `(book, chapter, from_verse, to_verse)`,
where `to_verse = -1` means "to the end of the chapter". -/
abbrev Ref := Nat × Nat × Nat × Int

/-- The range-expansion block of `parse_reference` (lines 395-406):
given the resolved `from_chapter`/`from_verse` (already defaulted to 1),
the `to_chapter` (0 standing for a falsy/absent value) and the `to_verse`
(already defaulted to -1), emit the reference tuples for one book. -/
def parseRefRangeEmit (b fc fv tc : Nat) (tv : Int) : List Ref :=
  if tc ≠ 0 ∧ fc < tc then
    ((b, fc, fv, (-1 : Int)) ::
      (List.range' (fc + 1) (tc - (fc + 1))).map (fun i => (b, i, 1, (-1 : Int)))) ++
      [(b, tc, 1, tv)]
  else if tv ≥ (fv : Int) ∨ tv = -1 then [(b, fc, fv, tv)]
  else []

/-- The append block of `parse_reference` (lines 393-410), for the whole
`book_ref_ids` list.  The in-place defaulting of `from_verse`/`to_verse`
inside the book loop is idempotent, so it is computed once up front. -/
def clauseEmit (books : List Nat) (rt : Bool) (fcN : Nat) (fv1 tc tv : Option Nat) :
    List Ref :=
  if rt then
    let fvN : Nat := if ¬ truthyN fv1 then 1 else fv1.getD 0
    let tvI : Int := if ¬ truthyN tv then -1 else (tv.getD 0 : Int)
    (books.map (fun b => parseRefRangeEmit b fcN fvN (tc.getD 0) tvI)).flatten
  else if truthyN fv1 then
    books.map (fun b => (b, fcN, fv1.getD 0, (fv1.getD 0 : Int)))
  else
    books.map (fun b => (b, fcN, 1, (-1 : Int)))

/-- The loop body of `parse_reference` after the fill stage (lines
382-410): `stA` is the `chapter` variable as left by the fill stage, `fcA`
and `fvA` the filled `from_chapter`/`from_verse`, `tcA`/`tvA` the raw
`to_chapter`/`to_verse` groups.  The `continue` at line 384 appends
nothing and leaves `chapter` as the fill stage set it. -/
def clausePost (books : List Nat) (rt : Bool) (stA fcA fvA tcA tvA : Option Nat) :
    Option Nat × List Ref :=
  if truthyN tcA then
    if truthyN fcA ∧ tcA.getD 0 < fcA.getD 0 then (stA, [])
    else (tcA, clauseEmit books rt (fcA.getD 0) fvA tcA tvA)
  else if truthyN tvA then
    if truthyN stA then (stA, clauseEmit books rt (fcA.getD 0) fvA stA tvA)
    else (stA, clauseEmit books rt (fcA.getD 0) fvA tvA none)
  else (stA, clauseEmit books rt (fcA.getD 0) fvA none tvA)

/-- One iteration of the `for this_range in range_list` loop of
`parse_reference` (lines 359-410), for a clause that matched as `m`:
`st` is the `chapter` variable; the result is the new `chapter` and the
tuples appended to `ref_list`.  The three cases are the fill stage (lines
374-381): an explicit truthy `from_chapter` (which also sets `chapter`),
the carried chapter, or the reinterpretation of `from_verse` as a chapter
(with `from_verse` then cleared to `None`). -/
def clauseStep (books : List Nat) (st : Option Nat) (m : RangeM) :
    Option Nat × List Ref :=
  if truthyN m.from_chapter then
    clausePost books m.range_to m.from_chapter m.from_chapter (some m.from_verse)
      m.to_chapter m.to_verse
  else if truthyN st then
    clausePost books m.range_to st st (some m.from_verse) m.to_chapter m.to_verse
  else
    clausePost books m.range_to st (some m.from_verse) none m.to_chapter m.to_verse

/-- The whole clause loop of `parse_reference` over already-matched clauses. -/
def processClauses (books : List Nat) : List RangeM → Option Nat → List Ref → List Ref
  | [], _, acc => acc
  | m :: ms, st, acc =>
      let s := clauseStep books st m
      processClauses books ms s.1 (acc ++ s.2)

/-!
### The reference grammar over strings

With the default separators, `update_reference_separators` (lines 183-240)
compiles these patterns:

* `sep_v = \s*(?::|v|V|verse|verses)\s*`
* `sep_r = \s*(?:[-­‐‑‒—−﹣－]|to)\s*`
* `sep_l = \s*(?:[,‚]|and)\s*`
* `sep_e = \s*(?:end)\s*`
* `range`: anchored
  `^\s*(?:(?P<from_chapter>[0-9]+)sep_v)?(?P<from_verse>[0-9]+)(?P<range_to>sep_r(?:(?:(?P<to_chapter>[0-9]+)sep_v)?(?P<to_verse>[0-9]+)|sep_e)?)?\s*$`
* `full`:
  `^\s*(?!\s)(?P<book>[\d]*[.]?[^\d\.]+)\.*(?<!\s)\s*(?P<ranges>(?:range(?:sep_l(?!\s*$)|(?=\s*$)))+)\s*$`

The matchers below implement Python `re` semantics for these concrete
patterns directly.  Greedy character-class repetitions (`\s*`, `[0-9]+`,
`\.*`, `[^\d.]+`) are maximal munch, which is faithful here because in
every position the continuation can never start with a character of the
repeated class; the genuinely nondeterministic parts (the optional groups
and alternations of `range`, the book/ranges boundary, and the clause
boundaries of the `+` repetition) are tried exhaustively in the order
Python's backtracking visits them.  `$` matches at end of input or before
a final newline, but a newline is itself `\s`, so `\s*$`, `(?=\s*$)` and
`(?!\s*$)` reduce to (non-)emptiness of the input up to whitespace.
-/

/-- Python `\s`, restricted to the ASCII range (see the header note). -/
def isWS (c : Char) : Bool :=
  c == ' ' || c == '\t' || c == '\n' || c == '\r' || c == '\x0b' || c == '\x0c'

/-- The class `[0-9]`. -/
def isDig (c : Char) : Bool := c.isDigit

/-- The hyphen alternatives substituted for `-` at line 226 of
`lib/__init__.py` (the source lists `—` twice). -/
def isHyphenSep (c : Char) : Bool :=
  c == '-' || c == '­' || c == '‐' || c == '‑' || c == '‒' ||
  c == '—' || c == '−' || c == '﹣' || c == '－'

/-- Remainder of `l` after a literal token, if the token is a prefix. -/
def stripPfx : List Char → List Char → Option (List Char)
  | [], l => some l
  | _ :: _, [] => none
  | t :: ts, c :: cs => if c = t then stripPfx ts cs else none

/-- `int()` of a digit group. -/
def natOfDigits (l : List Char) : Nat :=
  l.foldl (fun a c => 10 * a + (c.toNat - 48)) 0

/-- `[0-9]+` with maximal munch: `(consumed, rest)`. -/
def digits1 (l : List Char) : Option (List Char × List Char) :=
  match l.takeWhile isDig with
  | [] => none
  | d => some (d, l.dropWhile isDig)

/-- Does `\s*[0-9]` follow?  This decides which `sep_v` alternative Python's
backtracking commits to: among `:`, `v`, `V`, `verse`, `verses`, at most one
alternative matching the text is followed by optional whitespace and a digit
(the characters `e`/`s` that extend `v`/`verse` are neither whitespace nor
digits), and both occurrences of `sep_v` in the range pattern are followed
by a `[0-9]+` group. -/
def digitAhead (l : List Char) : Bool :=
  match l.dropWhile isWS with
  | [] => false
  | c :: _ => isDig c

/-- The ordered alternatives of `sep_v`. -/
def sepVToks : List (List Char) :=
  [[':'], ['v'], ['V'], ['v', 'e', 'r', 's', 'e'], ['v', 'e', 'r', 's', 'e', 's']]

/-- First `sep_v` alternative that matches and is followed by `\s*[0-9]`. -/
def sepVGo : List (List Char) → List Char → Option (List Char × List Char)
  | [], _ => none
  | t :: ts, l =>
    match stripPfx t l with
    | some r =>
      if digitAhead r then some (t ++ r.takeWhile isWS, r.dropWhile isWS)
      else sepVGo ts l
    | none => sepVGo ts l

/-- `sep_v` as `(consumed, rest)`. -/
def sepV (l : List Char) : Option (List Char × List Char) :=
  match sepVGo sepVToks (l.dropWhile isWS) with
  | some (c, r) => some (l.takeWhile isWS ++ c, r)
  | none => none

/-- `sep_r` as `(consumed, rest)`: a hyphen alternative or `to` (their first
characters are disjoint, so the choice is deterministic). -/
def sepR (l : List Char) : Option (List Char × List Char) :=
  match l.dropWhile isWS with
  | [] => none
  | c :: cs =>
    if isHyphenSep c then
      some (l.takeWhile isWS ++ [c] ++ cs.takeWhile isWS, cs.dropWhile isWS)
    else
      match stripPfx ['t', 'o'] (c :: cs) with
      | some r2 =>
        some (l.takeWhile isWS ++ ['t', 'o'] ++ r2.takeWhile isWS, r2.dropWhile isWS)
      | none => none

/-- `sep_e` as `(consumed, rest)`. -/
def sepE (l : List Char) : Option (List Char × List Char) :=
  match stripPfx ['e', 'n', 'd'] (l.dropWhile isWS) with
  | some r2 =>
    some (l.takeWhile isWS ++ ['e', 'n', 'd'] ++ r2.takeWhile isWS, r2.dropWhile isWS)
  | none => none

/-- The ordered alternatives of `sep_l` (first characters disjoint). -/
def sepLToks : List (List Char) := [[','], ['‚'], ['a', 'n', 'd']]

/-- First `sep_l` alternative that matches at the head of `l`. -/
def sepLGo : List (List Char) → List Char → Option (List Char × List Char)
  | [], _ => none
  | t :: ts, l =>
    match stripPfx t l with
    | some r => some (t ++ r.takeWhile isWS, r.dropWhile isWS)
    | none => sepLGo ts l

/-- `sep_l` as `(consumed, rest)`. -/
def sepL (l : List Char) : Option (List Char × List Char) :=
  match sepLGo sepLToks (l.dropWhile isWS) with
  | some (c, r) => some (l.takeWhile isWS ++ c, r)
  | none => none

/-- Is the remainder `\s*$`? -/
def allWS (l : List Char) : Bool := l.all isWS

/-- Candidates for the tail of a clause after the `from_verse` group, in the
order Python's backtracking tries them: the optional `range_to` part first,
with its inner alternatives in order (`to_chapter` with `to_verse`, bare
`to_verse`, `sep_e`, nothing), then the no-range alternative.  Each
candidate is `(groups, consumed, rest)` with `consumed` extending `c0`. -/
def tailCands (fc : Option Nat) (fv : Nat) (c0 r0 : List Char) :
    List (RangeM × List Char × List Char) :=
  (match sepR r0 with
   | none => []
   | some (cR, r1) =>
     (match digits1 r1 with
      | none => []
      | some (dt, r2) =>
        (match sepV r2 with
         | none => []
         | some (cV, r3) =>
           match digits1 r3 with
           | none => []
           | some (dv, r4) =>
             [(⟨fc, fv, true, some (natOfDigits dt), some (natOfDigits dv)⟩,
               c0 ++ cR ++ dt ++ cV ++ dv, r4)]) ++
        [(⟨fc, fv, true, none, some (natOfDigits dt)⟩, c0 ++ cR ++ dt, r2)]) ++
     (match sepE r1 with
      | none => []
      | some (cE, r2) => [(⟨fc, fv, true, none, none⟩, c0 ++ cR ++ cE, r2)]) ++
     [(⟨fc, fv, true, none, none⟩, c0 ++ cR, r1)]) ++
  [(⟨fc, fv, false, none, none⟩, c0, r0)]

/-- All structurally distinct ways the unanchored `range` pattern can match
a prefix of `l`, as `(groups, consumed, rest)`, in the order Python's
backtracking visits them (the optional `from_chapter` group first). -/
def clauseCands (l : List Char) : List (RangeM × List Char × List Char) :=
  match digits1 l with
  | none => []
  | some (d1, r1) =>
    (match sepV r1 with
     | none => []
     | some (cV, r2) =>
       match digits1 r2 with
       | none => []
       | some (d2, r3) =>
         tailCands (some (natOfDigits d1)) (natOfDigits d2) (d1 ++ cV ++ d2) r3) ++
    tailCands none (natOfDigits d1) d1 r1

/-- The anchored `range` match (`REFERENCE_MATCHES['range']`): leading
`\s*`, then the first candidate whose remainder is `\s*$`. -/
def matchRange (l : List Char) : Option RangeM :=
  (((clauseCands (l.dropWhile isWS)).filter (fun c => allWS c.2.2)).head?).map
    (fun c => c.1)

/-- The `(?:range(?:sep_l(?!\s*$)|(?=\s*$)))+` repetition: take the first
clause candidate whose continuation succeeds, where the continuation is
end-of-input up to whitespace, or a list separator not followed by
end-of-input and then, recursively, the rest of the repetition.  Returns
the (clause text, separator text) decomposition; the leftover whitespace
after the last clause is outside the `ranges` group.  The fuel only bounds
the backtracking depth; `rangesP` always passes enough. -/
def rangesGo : Nat → List (RangeM × List Char × List Char) →
    Option (List (List Char × List Char) × List Char)
  | 0, _ => none
  | _ + 1, [] => none
  | fuel + 1, (_, c, r) :: rest =>
    if allWS r then some ([(c, [])], r)
    else
      match sepL r with
      | some (cL, r2) =>
        if allWS r2 then rangesGo fuel rest
        else
          match rangesGo fuel (clauseCands r2) with
          | some (ps, rf) => some ((c, cL) :: ps, rf)
          | none => rangesGo fuel rest
      | none => rangesGo fuel rest

/-- Match the `ranges` part of the full pattern against the whole of `l`.
Each clause consumes at least one character and contributes at most ten
candidates, so the fuel is always sufficient. -/
def rangesP (l : List Char) : Option (List (List Char × List Char) × List Char) :=
  rangesGo (11 * l.length + 11) (clauseCands l)

/-- Reassemble the text of the `ranges` group from its decomposition. -/
def joinPairs (ps : List (List Char × List Char)) : List Char :=
  ps.foldr (fun p acc => p.1 ++ p.2 ++ acc) []

/-- The class `[^\d\.]` of the book group. -/
def bookChar (c : Char) : Bool := !(isDig c) && c != '.'

/-- Try the book-group boundary (the length of the `[^\d.]+` part) from
longest to shortest, as Python's greedy backtracking does; after the book
group the pattern is `\.*(?<!\s)\s*` and then the ranges repetition. -/
def bookTry (bd bdot bt l4 : List Char) :
    Nat → Option (List Char × List (List Char × List Char))
  | 0 => none
  | k + 1 =>
    let piece := bt.take (k + 1)
    let rem := bt.drop (k + 1) ++ l4
    let dots := rem.takeWhile (fun c => c == '.')
    let rem2 := rem.dropWhile (fun c => c == '.')
    let lookb : Bool := if dots.isEmpty then !(isWS (piece.getLastD ' ')) else true
    if lookb then
      match rangesP (rem2.dropWhile isWS) with
      | some (ps, _) => some (bd ++ bdot ++ piece, ps)
      | none => bookTry bd bdot bt l4 k
    else bookTry bd bdot bt l4 k

/-- `REFERENCE_MATCHES['full'].match(reference)`: the `book` and `ranges`
groups on success.  The leading `^\s*(?!\s)` is maximal-munch whitespace;
the book part `[\d]*[.]?` is deterministic (shortening `[\d]*` or skipping
an available `[.]` puts a digit or a dot in front of `[^\d.]+`). -/
def fullMatch (reference : String) : Option (String × List Char) :=
  let l1 := reference.data.dropWhile isWS
  let bd := l1.takeWhile isDig
  let l2 := l1.dropWhile isDig
  let hasDot : Bool := decide (l2.head? = some '.')
  let bdot : List Char := if hasDot then ['.'] else []
  let l3 := if hasDot then l2.tail else l2
  let bt := l3.takeWhile bookChar
  let l4 := l3.dropWhile bookChar
  match bookTry bd bdot bt l4 bt.length with
  | some (bk, ps) => some (String.mk bk, joinPairs ps)
  | none => none

/-- `re.split` of the compiled `sep_l` on the `ranges` group text: scan left
to right; at each position the pattern matches exactly when `sepL` does. -/
def splitGo : Nat → List Char → List Char → List (List Char)
  | 0, acc, l => [acc.reverse ++ l]
  | _ + 1, acc, [] => [acc.reverse]
  | fuel + 1, acc, ch :: t =>
    match sepL (ch :: t) with
    | some (_, r) => acc.reverse :: splitGo fuel [] r
    | none => splitGo fuel (ch :: acc) t

/-- `get_reference_match('range_separator').split(ranges)`.  Every step
consumes at least one character, so the fuel is always sufficient. -/
def splitSepL (l : List Char) : List (List Char) :=
  splitGo (l.length + 1) [] l

/-- The interface of the Bible database object used by `parse_reference`. -/
structure Bible where
  get_book_ref_id_by_localised_name : String → Nat → List Nat
  get_book_by_book_ref_id : Nat → Bool

/-- The compiled regular expressions held in the module-level
`REFERENCE_MATCHES` table: the keys `range`, `range_separator` and `full`. -/
structure MatchTables where
  range_m : List Char → Option RangeM
  range_separator_split : List Char → List (List Char)
  full_m : String → Option (String × List Char)

/-- The tables as `update_reference_separators` builds them for the default
separator configuration. -/
def defaultTables : MatchTables := ⟨matchRange, splitSepL, fullMatch⟩

/-- The clause loop over the split pieces, with the failure mode explicit:
`none` models the `AttributeError` that line 361 of `parse_reference` would
raise if a piece produced by the `range_separator` split did not match the
anchored `range` pattern (`.group` on a failed match). -/
def processPieces (rm : List Char → Option RangeM) (books : List Nat) :
    List (List Char) → Option Nat → List Ref → Option (List Ref)
  | [], _, acc => some acc
  | p :: ps, st, acc =>
    match rm p with
    | none => none
    | some m =>
      let s := clauseStep books st m
      processPieces rm books ps s.1 (acc ++ s.2)

/-- `parse_reference(reference, bible, language_selection, book_ref_id)`
(lines 265-414), against a given table of compiled expressions.
`book_ref_id = none` models the falsy default `False`.  A result `none`
models an uncaught exception; `parse_never_fails` shows it never occurs. -/
def parse_reference_t (t : MatchTables) (reference : String) (bible : Bible)
    (language_selection : Nat) (book_ref_id : Option Nat) : Option (List Ref) :=
  match t.full_m reference with
  | none => some []
  | some (book, ranges) =>
    let book_ref_ids :=
      match book_ref_id with
      | none => bible.get_book_ref_id_by_localised_name book language_selection
      | some i => if bible.get_book_by_book_ref_id i then [i] else []
    if book_ref_ids.isEmpty then some []
    else processPieces t.range_m book_ref_ids (t.range_separator_split ranges) none []

/-- `parse_reference` with the default separators. -/
def parse_reference (reference : String) (bible : Bible) (language_selection : Nat)
    (book_ref_id : Option Nat) : Option (List Ref) :=
  parse_reference_t defaultTables reference bible language_selection book_ref_id

/-- `get_reference_match` (lines 254-262) as a state transformer on the
lazily initialised module-level tables: compiles them on first use. -/
def get_reference_match_st (st : Option MatchTables) :
    Option MatchTables × MatchTables :=
  match st with
  | none => (some defaultTables, defaultTables)
  | some t => (some t, t)

/-- A call of `parse_reference` together with its only side effect, the
lazy initialisation of the module tables. -/
def parse_reference_st (st : Option MatchTables) (reference : String) (bible : Bible)
    (language_selection : Nat) (book_ref_id : Option Nat) :
    Option MatchTables × Option (List Ref) :=
  let s1 := get_reference_match_st st
  (s1.1, parse_reference_t s1.2 reference bible language_selection book_ref_id)

/-- `BibleManager.process_verse_range` (manager.py lines 452-464):
`for chapter in range(chapter_from, chapter_to + 1)`, with `start_verse`
equal to `verse_from` only in the first chapter and `end_verse` equal to
`verse_to` only in the last chapter, `-1` elsewhere. -/
def process_verse_range (b c1 : Nat) (v1 : Nat) (c2 : Nat) (v2 : Int) : List Ref :=
  (List.range' c1 (c2 + 1 - c1)).map
    (fun ch => (b, ch, if ch = c1 then v1 else 1, if ch = c2 then v2 else -1))

/-!
### The similarity-search ranking step

`BibleManager.similarity_search` (manager.py lines 403-450): after the
guards, the verse ids and similarity scores are zipped, sorted by score
descending (`sorted` is stable, so ties keep their original order), and
filtered for duplicates and the threshold with an early break at
`max_results`.  Similarity scores are modelled as integers: the algorithm
only compares them, and float comparison on the (non-NaN) scores produced
by the encoder models is a linear order.
-/

/-- Stable insertion for the descending sort: an element moves past exactly
the strictly greater scores, so equal scores keep their original order. -/
def insertDesc (a : Nat × Int) : List (Nat × Int) → List (Nat × Int)
  | [] => [a]
  | b :: t => if b.2 ≤ a.2 then a :: b :: t else b :: insertDesc a t

/-- `sorted(verse_similarity, key=lambda x: x[1], reverse=True)`. -/
def sortDesc (l : List (Nat × Int)) : List (Nat × Int) :=
  l.foldr insertDesc []

/-- The duplicate-filtering loop of `similarity_search` (lines 444-449):
append an id if it is new and meets the threshold; break as soon as the
result has reached `max_results` entries. -/
def rankGo (thr : Int) (maxR : Nat) : List (Nat × Int) → List Nat → List Nat
  | [], res => res
  | (v, s) :: t, res =>
    if v ∉ res ∧ thr ≤ s then
      if maxR ≤ (res ++ [v]).length then res ++ [v] else rankGo thr maxR t (res ++ [v])
    else rankGo thr maxR t res

/-- The ranking step of `similarity_search`: from the zipped
(verse id, similarity) list to the id list passed to `get_verses_by_id`. -/
def similaritySearchRank (verse_similarity : List (Nat × Int)) (thr : Int)
    (maxR : Nat) : List Nat :=
  rankGo thr maxR (sortDesc verse_similarity) []

/-!
### The model information tables

`ModelType`, `ModelLibrary` and the `ModelInfo` tables of
`lib/__init__.py` (lines 45-956).  Only the claim-relevant fields of each
entry are modelled: `library` and `type` (the remaining fields are display
strings, sizes and URLs).
-/

inductive ModelType
  | ENCODER
  | TRANSCRIBER
deriving DecidableEq

inductive ModelLibrary
  | SENTENCE_TRANSFORMERS
  | TENSORFLOW
  | WHISPER
  | SPEECHBRAIN
deriving DecidableEq

/-- `ModelLibrary.model_type` (lines 80-84). -/
def ModelLibrary.model_type : ModelLibrary → ModelType
  | ModelLibrary.SENTENCE_TRANSFORMERS => ModelType.ENCODER
  | ModelLibrary.TENSORFLOW => ModelType.ENCODER
  | _ => ModelType.TRANSCRIBER

/-- The `library` and `type` fields of a model-table entry. -/
structure MEntry where
  library : ModelLibrary
  mtype : ModelType
deriving DecidableEq

/-- `ModelInfo.embedding_models` (lines 444-661), as an association list
keyed by model name (all keys are distinct, as in the Python dict). -/
def embedding_models : List (String × MEntry) :=
  [("all-mpnet-base-v2", ⟨ModelLibrary.SENTENCE_TRANSFORMERS, ModelType.ENCODER⟩),
   ("multi-qa-mpnet-base-cos-v1", ⟨ModelLibrary.SENTENCE_TRANSFORMERS, ModelType.ENCODER⟩),
   ("all-roberta-large-v1", ⟨ModelLibrary.SENTENCE_TRANSFORMERS, ModelType.ENCODER⟩),
   ("all-distilroberta-v1", ⟨ModelLibrary.SENTENCE_TRANSFORMERS, ModelType.ENCODER⟩),
   ("all-MiniLM-L12-v2", ⟨ModelLibrary.SENTENCE_TRANSFORMERS, ModelType.ENCODER⟩),
   ("multi-qa-distilbert-cos-v1", ⟨ModelLibrary.SENTENCE_TRANSFORMERS, ModelType.ENCODER⟩),
   ("all-MiniLM-L6-v2", ⟨ModelLibrary.SENTENCE_TRANSFORMERS, ModelType.ENCODER⟩),
   ("multi-qa-MiniLM-L6-cos-v1", ⟨ModelLibrary.SENTENCE_TRANSFORMERS, ModelType.ENCODER⟩),
   ("paraphrase-multilingual-mpnet-base-v2", ⟨ModelLibrary.SENTENCE_TRANSFORMERS, ModelType.ENCODER⟩),
   ("paraphrase-albert-small-v2", ⟨ModelLibrary.SENTENCE_TRANSFORMERS, ModelType.ENCODER⟩),
   ("paraphrase-multilingual-MiniLM-L12-v2", ⟨ModelLibrary.SENTENCE_TRANSFORMERS, ModelType.ENCODER⟩),
   ("paraphrase-MiniLM-L3-v2", ⟨ModelLibrary.SENTENCE_TRANSFORMERS, ModelType.ENCODER⟩),
   ("universal-sentence-encoder", ⟨ModelLibrary.TENSORFLOW, ModelType.ENCODER⟩),
   ("universal-sentence-encoder-large", ⟨ModelLibrary.TENSORFLOW, ModelType.ENCODER⟩),
   ("universal-sentence-encoder-qa", ⟨ModelLibrary.TENSORFLOW, ModelType.ENCODER⟩),
   ("universal-sentence-encoder-multilingual", ⟨ModelLibrary.TENSORFLOW, ModelType.ENCODER⟩),
   ("universal-sentence-encoder-multilingual-large", ⟨ModelLibrary.TENSORFLOW, ModelType.ENCODER⟩),
   ("universal-sentence-encoder-multilingual-qa", ⟨ModelLibrary.TENSORFLOW, ModelType.ENCODER⟩)]

/-- `ModelInfo.transcription_models` (lines 662-941); the DeepSpeech entry
is commented out in the source. -/
def transcription_models : List (String × MEntry) :=
  [("openai-whisper-tiny", ⟨ModelLibrary.WHISPER, ModelType.TRANSCRIBER⟩),
   ("openai-whisper-tiny-multilingual", ⟨ModelLibrary.WHISPER, ModelType.TRANSCRIBER⟩),
   ("openai-whisper-base", ⟨ModelLibrary.WHISPER, ModelType.TRANSCRIBER⟩),
   ("openai-whisper-base-multilingual", ⟨ModelLibrary.WHISPER, ModelType.TRANSCRIBER⟩),
   ("openai-whisper-small", ⟨ModelLibrary.WHISPER, ModelType.TRANSCRIBER⟩),
   ("openai-whisper-small-multilingual", ⟨ModelLibrary.WHISPER, ModelType.TRANSCRIBER⟩),
   ("openai-whisper-medium", ⟨ModelLibrary.WHISPER, ModelType.TRANSCRIBER⟩),
   ("openai-whisper-medium-multilingual", ⟨ModelLibrary.WHISPER, ModelType.TRANSCRIBER⟩),
   ("openai-whisper-large-multilingual", ⟨ModelLibrary.WHISPER, ModelType.TRANSCRIBER⟩),
   ("openai-whisper-large-multilingual-turbo", ⟨ModelLibrary.WHISPER, ModelType.TRANSCRIBER⟩),
   ("asr-crdnn-transformerlm-librispeech", ⟨ModelLibrary.SPEECHBRAIN, ModelType.TRANSCRIBER⟩),
   ("asr-streaming-conformer-librispeech", ⟨ModelLibrary.SPEECHBRAIN, ModelType.TRANSCRIBER⟩),
   ("asr-wav2vec2-commonvoice-14-en", ⟨ModelLibrary.SPEECHBRAIN, ModelType.TRANSCRIBER⟩),
   ("asr-conformer-transformerlm-librispeech", ⟨ModelLibrary.SPEECHBRAIN, ModelType.TRANSCRIBER⟩),
   ("asr-wav2vec2-commonvoice-en", ⟨ModelLibrary.SPEECHBRAIN, ModelType.TRANSCRIBER⟩),
   ("asr-wav2vec2-switchboard", ⟨ModelLibrary.SPEECHBRAIN, ModelType.TRANSCRIBER⟩),
   ("asr-crdnn-switchboard", ⟨ModelLibrary.SPEECHBRAIN, ModelType.TRANSCRIBER⟩),
   ("asr-transformer-switchboard", ⟨ModelLibrary.SPEECHBRAIN, ModelType.TRANSCRIBER⟩),
   ("asr-wav2vec2-librispeech", ⟨ModelLibrary.SPEECHBRAIN, ModelType.TRANSCRIBER⟩),
   ("asr-conformersmall-transformerlm-librispeech", ⟨ModelLibrary.SPEECHBRAIN, ModelType.TRANSCRIBER⟩),
   ("asr-transformer-transformerlm-librispeech", ⟨ModelLibrary.SPEECHBRAIN, ModelType.TRANSCRIBER⟩),
   ("asr-branchformer-large-tedlium2", ⟨ModelLibrary.SPEECHBRAIN, ModelType.TRANSCRIBER⟩),
   ("asr-crdnn-rnnlm-librispeech", ⟨ModelLibrary.SPEECHBRAIN, ModelType.TRANSCRIBER⟩),
   ("asr-crdnn-commonvoice-14-en", ⟨ModelLibrary.SPEECHBRAIN, ModelType.TRANSCRIBER⟩)]

/-- `ModelInfo.all_models = {**embedding_models, **transcription_models}`:
with the two key sets disjoint (`embedding_trans_disjoint`), the Python
dict merge is concatenation. -/
def all_models : List (String × MEntry) :=
  embedding_models ++ transcription_models

/-- `ModelInfo.get_model_info` (lines 944-956): membership in a Python dict
followed by indexing is association-list lookup. -/
def get_model_info (model_name : String) : Option MEntry :=
  match embedding_models.lookup model_name with
  | some e => some e
  | none => transcription_models.lookup model_name

/-!
### Specification-level definitions used by the theorems
-/

/-- A concrete Bible for witnesses: `John` is book 1, in every language. -/
def demoBible : Bible :=
  ⟨fun s _ => if s = "John" then [1] else [], fun _ => true⟩

/-- The chapter a clause resolves its verses in: its own explicit
`from_chapter` group if truthy, else the carried chapter if one exists,
else its `from_verse` number reinterpreted as a chapter. -/
def carriedFromChapter (st : Option Nat) (m : RangeM) : Nat :=
  if truthyN m.from_chapter then m.from_chapter.getD 0
  else if truthyN st then st.getD 0
  else m.from_verse

/-- The carried-chapter update rule of the amended C3: the carried chapter
is set by an explicit truthy `from_chapter` group, overridden by an
explicit truthy `to_chapter` group unless that range is rejected as
backwards, and is never set by a reinterpreted bare chapter number. -/
def carryUpdate (st : Option Nat) (m : RangeM) : Option Nat :=
  if truthyN m.to_chapter ∧
      ¬(carriedFromChapter st m ≠ 0 ∧ m.to_chapter.getD 0 < carriedFromChapter st m) then
    m.to_chapter
  else if truthyN m.from_chapter then m.from_chapter
  else st

/-- The invariant carried by the `chapter` variable of `parse_reference`:
it is only ever assigned truthy values. -/
abbrev stInv : Option Nat → Prop
  | none => True
  | some n => 1 ≤ n

/-- The normalization invariant (amended C2) of an emitted tuple. -/
abbrev refInv (t : Ref) : Prop :=
  1 ≤ t.2.2.1 ∧ (t.2.2.2 = -1 ∨ (t.2.2.1 : Int) ≤ t.2.2.2) ∧
    (1 ≤ t.2.1 ∨ (t.2.1 = 0 ∧ t.2.2.1 = 1 ∧ t.2.2.2 = -1))

/-!
### Syntactic facts used to prove that the split pieces always re-match

`parse_reference` matches the full pattern, splits the `ranges` group text
on `sep_l`, and re-matches every piece with the anchored `range` pattern
without checking for failure.  The definitions below name the syntactic
facts about the clause/separator decomposition produced by `rangesGo` from
which `parse_never_fails` shows the re-match cannot fail.
-/

/-- Trailing whitespace of a piece of text. -/
def wsTrail (l : List Char) : List Char := (l.reverse.takeWhile isWS).reverse

/-- The text without its trailing whitespace. -/
def trimTrail (l : List Char) : List Char := (l.reverse.dropWhile isWS).reverse

/-- Characters that can start (or continue into) a `sep_l` token: a match
of `\s*(?:[,‚]|and)\s*` needs one of `,`, `‚`, `a`.  Clause text never
contains one. -/
def sepLFree (c : Char) : Bool := !(c == ',' || c == '‚' || c == 'a')

/-- A token is viable for `sep_v` at some position when it matches there
and `\s*[0-9]` follows; at most one alternative ever is. -/
def sepVViable (t l : List Char) : Prop :=
  ∃ r, stripPfx t l = some r ∧ digitAhead r = true

/-- What `parse_never_fails` needs of a clause text: it starts with a
digit, contains no `sep_l` trigger character, and stripped of trailing
whitespace (and with any whitespace re-appended) it still matches the
anchored `range` pattern. -/
def ClauseOK (c : List Char) : Prop :=
  (∃ d t, c = d :: t ∧ isDig d = true) ∧
  (∀ ch ∈ c, sepLFree ch = true) ∧
  (∀ w, allWS w = true → matchRange (trimTrail c ++ w) ≠ none)

/-- What `parse_never_fails` needs of a separator text consumed by `sepL`. -/
def SepOK (s : List Char) : Prop :=
  ∃ w1 tok w2, s = w1 ++ tok ++ w2 ∧ allWS w1 = true ∧ tok ∈ sepLToks ∧
    allWS w2 = true

/-- The invariant of the decomposition returned by `rangesGo`: every clause
is `ClauseOK`, every separator but the last is `SepOK`, and the last
separator is empty. -/
def PiecesOK : List (List Char × List Char) → Prop
  | [] => False
  | [(c, s)] => ClauseOK c ∧ s = []
  | (c, s) :: rest => ClauseOK c ∧ SepOK s ∧ PiecesOK rest

/-!
## Theorems
-/

theorem lookup_some_mem {α β : Type} [BEq α] [LawfulBEq α] (l : List (α × β)) (k : α)
    (e : β) (h : l.lookup k = some e) : (k, e) ∈ l := by
  induction l with
  | nil => simp [List.lookup] at h
  | cons a t ih =>
    rw [List.lookup] at h
    by_cases hk : k == a.1
    · simp [hk] at h
      have : k = a.1 := eq_of_beq hk
      subst this
      subst h
      exact List.mem_cons_self _ _
    · simp [hk] at h
      exact List.mem_cons_of_mem _ (ih h)

/-- The two model dicts have disjoint key sets. -/
theorem embedding_trans_key_disjoint :
    ∀ p ∈ embedding_models, ∀ q ∈ transcription_models, p.1 ≠ q.1 := by decide

/-- C9: every entry's `type` field agrees with the `model_type` of its
`library` field, and `get_model_info` returns the embedding entry exactly
for embedding-model names, the transcription entry exactly for
transcription-model names, and `none` otherwise. -/
theorem model_table_consistent :
    (∀ p ∈ all_models, p.2.mtype = p.2.library.model_type) ∧
    (∀ name e, embedding_models.lookup name = some e → get_model_info name = some e) ∧
    (∀ name e, transcription_models.lookup name = some e → get_model_info name = some e) ∧
    (∀ name, embedding_models.lookup name = none →
      transcription_models.lookup name = none → get_model_info name = none) := by
  refine ⟨by decide, ?_, ?_, ?_⟩
  · intro name e h
    simp [get_model_info, h]
  · intro name e h
    have hemb : embedding_models.lookup name = none := by
      cases hcase : embedding_models.lookup name with
      | none => rfl
      | some e' =>
        have h1 := lookup_some_mem embedding_models name e' hcase
        have h2 := lookup_some_mem transcription_models name e h
        exact absurd rfl (embedding_trans_key_disjoint (name, e') h1 (name, e) h2)
    simp [get_model_info, hemb, h]
  · intro name h1 h2
    simp [get_model_info, h1, h2]

theorem model_table_consistent_witness :
    get_model_info "openai-whisper-base" =
      some ⟨ModelLibrary.WHISPER, ModelType.TRANSCRIBER⟩ :=
  model_table_consistent.2.2.1 "openai-whisper-base" _ (by decide)

theorem mem_insertDesc (a x : Nat × Int) (l : List (Nat × Int)) :
    x ∈ insertDesc a l ↔ x = a ∨ x ∈ l := by
  induction l with
  | nil => simp [insertDesc]
  | cons b t ih =>
    rw [insertDesc]
    by_cases hb : b.2 ≤ a.2
    · simp [hb]
    · simp [hb, ih]
      tauto

theorem insertDesc_pairwise (a : Nat × Int) (l : List (Nat × Int))
    (h : l.Pairwise (fun x y => y.2 ≤ x.2)) :
    (insertDesc a l).Pairwise (fun x y => y.2 ≤ x.2) := by
  induction l with
  | nil => simp [insertDesc]
  | cons b t ih =>
    rw [insertDesc]
    rw [List.pairwise_cons] at h
    by_cases hb : b.2 ≤ a.2
    · rw [if_pos hb]
      refine List.pairwise_cons.2 ⟨?_, List.pairwise_cons.2 h⟩
      intro x hx
      rcases List.mem_cons.1 hx with hx | hx
      · exact hx ▸ hb
      · exact le_trans (h.1 x hx) hb
    · rw [if_neg hb]
      refine List.pairwise_cons.2 ⟨?_, ih h.2⟩
      intro x hx
      rcases (mem_insertDesc a x t).1 hx with hx | hx
      · exact hx ▸ le_of_lt (lt_of_not_le hb)
      · exact h.1 x hx

theorem sortDesc_pairwise (l : List (Nat × Int)) :
    (sortDesc l).Pairwise (fun x y => y.2 ≤ x.2) := by
  induction l with
  | nil => exact List.Pairwise.nil
  | cons a t ih => exact insertDesc_pairwise a _ ih

theorem mem_sortDesc (l : List (Nat × Int)) (x : Nat × Int) (h : x ∈ sortDesc l) :
    x ∈ l := by
  induction l with
  | nil => simp [sortDesc] at h
  | cons a t ih =>
    rcases (mem_insertDesc a x (sortDesc t)).1 h with h | h
    · exact h ▸ List.mem_cons_self _ _
    · exact List.mem_cons_of_mem _ (ih h)

theorem rankGo_spec (thr : Int) (maxR : Nat) (l : List (Nat × Int)) :
    ∀ res : List Nat,
      ∃ ps : List (Nat × Int),
        rankGo thr maxR l res = res ++ ps.map (fun p => p.1) ∧
        ps.Sublist l ∧
        (∀ p ∈ ps, thr ≤ p.2 ∧ p.1 ∉ res) ∧
        (ps.map (fun p => p.1)).Nodup ∧
        (res.length < maxR → (res ++ ps.map (fun p => p.1)).length ≤ maxR) := by
  induction l with
  | nil =>
    intro res
    exact ⟨[], by simp [rankGo], List.Sublist.refl _, by simp, by simp, by simp; omega⟩
  | cons a t ih =>
    intro res
    rw [rankGo]
    by_cases hsel : a.1 ∉ res ∧ thr ≤ a.2
    · rw [if_pos hsel]
      by_cases hbrk : maxR ≤ (res ++ [a.1]).length
      · rw [if_pos hbrk]
        refine ⟨[a], by simp, ?_, ?_, by simp, ?_⟩
        · exact List.Sublist.cons₂ a (List.nil_sublist t)
        · intro p hp
          rw [List.mem_singleton] at hp
          exact hp ▸ ⟨hsel.2, hsel.1⟩
        · intro hlen
          simp only [List.length_append, List.length_map, List.length_singleton]
          simp only [List.length_append, List.length_singleton] at hbrk
          omega
      · rw [if_neg hbrk]
        obtain ⟨ps, heq, hsub, hmem, hnd, hlen⟩ := ih (res ++ [a.1])
        refine ⟨a :: ps, ?_, List.Sublist.cons₂ a hsub, ?_, ?_, ?_⟩
        · rw [heq]; simp
        · intro p hp
          rcases List.mem_cons.1 hp with hp | hp
          · exact hp ▸ ⟨hsel.2, hsel.1⟩
          · refine ⟨(hmem p hp).1, fun hc => (hmem p hp).2 (by simp [hc])⟩
        · rw [List.map_cons, List.nodup_cons]
          refine ⟨fun hc => ?_, hnd⟩
          rw [List.mem_map] at hc
          obtain ⟨p, hp, hpe⟩ := hc
          exact (hmem p hp).2 (by simp [hpe])
        · intro hl
          simp only [List.length_append, List.length_singleton] at hbrk
          have := hlen (by simp; omega)
          simp only [List.length_append, List.length_singleton, List.length_map] at this ⊢
          simp only [List.map_cons, List.length_cons]
          omega
    · rw [if_neg hsel]
      obtain ⟨ps, heq, hsub, hmem, hnd, hlen⟩ := ih res
      exact ⟨ps, heq, List.Sublist.cons a hsub, hmem, hnd, hlen⟩

/-- C10 (amended): for every input, the id list handed to
`get_verses_by_id` by the ranking step of `similarity_search` is
duplicate-free, respects the threshold, and is ordered by non-increasing
similarity; it has at most `max_results` entries provided
`max_results ≥ 1` (with `max_results = 0` a single qualifying verse is
still returned, see the counterexample). -/
theorem similarity_rank_bounds (verse_similarity : List (Nat × Int)) (thr : Int)
    (maxR : Nat) :
    ∃ ps : List (Nat × Int),
      similaritySearchRank verse_similarity thr maxR = ps.map (fun p => p.1) ∧
      (∀ p ∈ ps, p ∈ verse_similarity ∧ thr ≤ p.2) ∧
      (ps.map (fun p => p.1)).Nodup ∧
      (1 ≤ maxR → (similaritySearchRank verse_similarity thr maxR).length ≤ maxR) ∧
      ps.Pairwise (fun x y => y.2 ≤ x.2) := by
  obtain ⟨ps, heq, hsub, hmem, hnd, hlen⟩ := rankGo_spec thr maxR (sortDesc verse_similarity) []
  rw [List.nil_append] at heq
  refine ⟨ps, heq, ?_, hnd, ?_, ?_⟩
  · intro p hp
    exact ⟨mem_sortDesc _ _ (hsub.mem hp), (hmem p hp).1⟩
  · intro hmax
    rw [similaritySearchRank, heq]
    simpa using hlen (by simpa using hmax)
  · exact (sortDesc_pairwise verse_similarity).sublist hsub

theorem similarity_rank_bounds_witness :
    (∃ ps : List (Nat × Int),
      similaritySearchRank [(5, 3), (7, 1), (5, 2)] 2 10 = ps.map (fun p => p.1) ∧
      (∀ p ∈ ps, p ∈ [(5, 3), (7, 1), (5, 2)] ∧ 2 ≤ p.2) ∧
      (ps.map (fun p => p.1)).Nodup ∧
      (similaritySearchRank [(5, 3), (7, 1), (5, 2)] 2 10).length ≤ 10 ∧
      ps.Pairwise (fun x y => y.2 ≤ x.2)) ∧
    (∃ ps : List (Nat × Int),
      similaritySearchRank [(5, 3)] 0 0 = ps.map (fun p => p.1) ∧
      (∀ p ∈ ps, p ∈ [(5, 3)] ∧ 0 ≤ p.2) ∧
      (ps.map (fun p => p.1)).Nodup ∧
      ps.Pairwise (fun x y => y.2 ≤ x.2)) := by
  constructor
  · obtain ⟨ps, h1, h2, h3, h4, h5⟩ := similarity_rank_bounds [(5, 3), (7, 1), (5, 2)] 2 10
    exact ⟨ps, h1, h2, h3, h4 (by decide), h5⟩
  · obtain ⟨ps, h1, h2, h3, h4, h5⟩ := similarity_rank_bounds [(5, 3)] 0 0
    exact ⟨ps, h1, h2, h3, h5⟩

/-- C10, as stated, is false at `max_results = 0`: the length check runs
only after an append, so one qualifying verse is returned. -/
theorem similarity_rank_counterexample :
    ¬ (similaritySearchRank [(5, 3)] 0 0).length ≤ 0 := by decide

theorem process_verse_range_counterexample :
    process_verse_range 1 1 2 1 1 ≠ parseRefRangeEmit 1 1 2 1 1 := by decide

/-- C8 (amended): `BibleManager.process_verse_range` and the
range-expansion block of `parse_reference` agree for `c1 < c2`, and for
`c1 = c2` whenever `v2 ≥ v1` or `v2 = -1`; in the remaining backwards
single-chapter case `parse_reference` emits nothing while
`process_verse_range` emits the backwards tuple (see the counterexample). -/
theorem process_verse_range_agrees (b c1 v1 c2 : Nat) (v2 : Int)
    (hle : c1 ≤ c2) (hok : c1 < c2 ∨ (v1 : Int) ≤ v2 ∨ v2 = -1) :
    process_verse_range b c1 v1 c2 v2 = parseRefRangeEmit b c1 v1 c2 v2 := by
  rcases Nat.lt_or_ge c1 c2 with h | h
  · have hc2 : c2 ≠ 0 := by omega
    rw [process_verse_range, parseRefRangeEmit, if_pos ⟨hc2, h⟩]
    have hn : c2 + 1 - c1 = (c2 - (c1 + 1)) + 1 + 1 := by omega
    rw [hn, List.range'_succ, List.map_cons, List.range'_concat]
    have hlast : c1 + 1 + 1 * (c2 - (c1 + 1)) = c2 := by omega
    rw [hlast, List.map_append]
    congr 1
    · rw [if_pos rfl, if_neg (by omega)]
    congr 1
    · apply List.map_congr_left
      intro ch hch
      rw [List.mem_range'_1] at hch
      rw [if_neg (by omega), if_neg (by omega)]
    · simp only [List.map_cons, List.map_nil]
      rw [if_neg (by omega)]
      simp
  · have hceq : c1 = c2 := le_antisymm hle h
    subst hceq
    have hv : (v1 : Int) ≤ v2 ∨ v2 = -1 := by
      rcases hok with h' | h'
      · omega
      · exact h'
    rw [process_verse_range, parseRefRangeEmit, if_neg (by omega),
      if_pos hv]
    have : c1 + 1 - c1 = 1 := by omega
    rw [this]
    simp

theorem process_verse_range_agrees_witness :
    process_verse_range 1 1 1 2 3 = parseRefRangeEmit 1 1 1 2 3 :=
  process_verse_range_agrees 1 1 1 2 3 (by decide) (Or.inl (by decide))

theorem truthyN_iff (o : Option Nat) : truthyN o = true ↔ 1 ≤ o.getD 0 := by
  cases o with
  | none => simp [truthyN]
  | some n =>
    simp only [truthyN, Option.getD_some, bne_iff_ne, ne_eq]
    omega

theorem truthyN_false_iff (o : Option Nat) : truthyN o = false ↔ o.getD 0 = 0 := by
  rw [← Bool.not_eq_true, truthyN_iff]
  omega

/-- C1: the spec's own example, against any bible whose localised-name
lookup resolves `John` to exactly one book id `B`. -/
theorem parse_spec_example (bible : Bible) (lang B : Nat)
    (h : bible.get_book_ref_id_by_localised_name "John" lang = [B]) :
    parse_reference "John 3:16-18,4:1" bible lang none =
      some [(B, 3, 16, 18), (B, 4, 1, 1)] := by
  have hf : fullMatch "John 3:16-18,4:1" =
      some ("John", "3:16-18,4:1".data) := by decide
  unfold parse_reference parse_reference_t
  rw [show defaultTables.full_m = fullMatch from rfl, hf]
  simp only [h]
  rfl

theorem parse_spec_example_witness :
    parse_reference "John 3:16-18,4:1" demoBible 0 none =
      some [(1, 3, 16, 18), (1, 4, 1, 1)] :=
  parse_spec_example demoBible 0 1 (by decide)

/-- C2 as stated is false: `"John 0"` is accepted by the full grammar (a
bare number is reinterpreted as a chapter) and yields the tuple
`(book, 0, 1, -1)` with chapter 0. -/
theorem parse_chapter_zero_counterexample :
    ¬ (∀ t ∈ (parse_reference "John 0" demoBible 0 none).getD [], 1 ≤ t.2.1) := by
  decide

/-- C7: with the separators fixed (the compiled tables are a function of
the settings alone, here the defaults), a `parse_reference` call is a pure
function of its arguments — in particular two runs from any module states
return equal lists — and its only effect on the module state is the
one-time lazy initialisation of the tables. -/
theorem parse_reference_deterministic (st st' : Option MatchTables)
    (h : st = none ∨ st = some defaultTables)
    (h' : st' = none ∨ st' = some defaultTables)
    (reference : String) (bible : Bible) (lang : Nat) (bid : Option Nat) :
    (parse_reference_st st reference bible lang bid).2 =
      (parse_reference_st st' reference bible lang bid).2 ∧
    (parse_reference_st st reference bible lang bid).2 =
      parse_reference reference bible lang bid ∧
    (parse_reference_st st reference bible lang bid).1 = some defaultTables := by
  rcases h with h | h <;> rcases h' with h' | h' <;> subst h <;> subst h' <;>
    exact ⟨rfl, rfl, rfl⟩

theorem parse_reference_deterministic_witness :
    (parse_reference_st none "John 3" demoBible 0 none).2 =
      (parse_reference_st (some defaultTables) "John 3" demoBible 0 none).2 ∧
    (parse_reference_st none "John 3" demoBible 0 none).2 =
      parse_reference "John 3" demoBible 0 none ∧
    (parse_reference_st none "John 3" demoBible 0 none).1 = some defaultTables :=
  parse_reference_deterministic none (some defaultTables) (Or.inl rfl) (Or.inr rfl)
    "John 3" demoBible 0 none

theorem parseRefRangeEmit_inv (b fc fv tc : Nat) (tv : Int)
    (hfv : 1 ≤ fv) (htv : tv = -1 ∨ 1 ≤ tv)
    (h0 : fc = 0 → fv = 1 ∧ (tc = 0 → tv = -1)) :
    ∀ t ∈ parseRefRangeEmit b fc fv tc tv, refInv t := by
  intro t ht
  rw [parseRefRangeEmit] at ht
  by_cases hcross : tc ≠ 0 ∧ fc < tc
  · rw [if_pos hcross] at ht
    rcases List.mem_append.1 ht with ht | ht
    · rcases List.mem_cons.1 ht with ht | ht
      · subst ht
        refine ⟨hfv, Or.inl rfl, ?_⟩
        rcases Nat.eq_zero_or_pos fc with h | h
        · exact Or.inr ⟨h, (h0 h).1, rfl⟩
        · exact Or.inl h
      · rw [List.mem_map] at ht
        obtain ⟨i, hi, hie⟩ := ht
        rw [List.mem_range'_1] at hi
        subst hie
        exact ⟨le_refl 1, Or.inl rfl, Or.inl (show 1 ≤ i by omega)⟩
    · rw [List.mem_singleton] at ht
      subst ht
      have h1 : 1 ≤ tc := by omega
      refine ⟨le_refl 1, ?_, Or.inl h1⟩
      rcases htv with h | h
      · exact Or.inl h
      · exact Or.inr (by exact_mod_cast h)
  · rw [if_neg hcross] at ht
    by_cases hguard : tv ≥ (fv : Int) ∨ tv = -1
    · rw [if_pos hguard] at ht
      rw [List.mem_singleton] at ht
      subst ht
      refine ⟨hfv, ?_, ?_⟩
      · rcases hguard with h | h
        · exact Or.inr h
        · exact Or.inl h
      · rcases Nat.eq_zero_or_pos fc with h | h
        · have htc0 : tc = 0 := by omega
          exact Or.inr ⟨h, (h0 h).1, (h0 h).2 htc0⟩
        · exact Or.inl h
    · rw [if_neg hguard] at ht
      cases ht

theorem clauseEmit_inv (books : List Nat) (rt : Bool) (fcN : Nat)
    (fv1 tc tv : Option Nat)
    (hdeg : fcN = 0 → truthyN fv1 = false ∧ (truthyN tc = false → truthyN tv = false)) :
    ∀ t ∈ clauseEmit books rt fcN fv1 tc tv, refInv t := by
  intro t ht
  rw [clauseEmit] at ht
  by_cases hrt : rt = true
  · rw [if_pos hrt] at ht
    rw [List.mem_flatten] at ht
    obtain ⟨l, hl, htl⟩ := ht
    rw [List.mem_map] at hl
    obtain ⟨bk, _, hbe⟩ := hl
    subst hbe
    refine parseRefRangeEmit_inv bk fcN _ _ _ ?_ ?_ ?_ t htl
    · by_cases h : truthyN fv1 = true
      · rw [if_neg (by simp [h])]
        exact (truthyN_iff fv1).1 h
      · rw [if_pos (by simp [h])]
    · by_cases h : truthyN tv = true
      · rw [if_neg (by simp [h])]
        right
        exact_mod_cast (truthyN_iff tv).1 h
      · rw [if_pos (by simp [h])]
        exact Or.inl rfl
    · intro hfc0
      obtain ⟨hfv, hc⟩ := hdeg hfc0
      constructor
      · rw [if_pos (by simp [hfv])]
      · intro htc0
        have h1 : truthyN tc = false := (truthyN_false_iff tc).2 htc0
        have h2 := hc h1
        rw [if_pos (by simp [h2])]
  · rw [if_neg hrt] at ht
    by_cases hfv : truthyN fv1 = true
    · rw [if_pos hfv] at ht
      rw [List.mem_map] at ht
      obtain ⟨bk, _, hbe⟩ := ht
      subst hbe
      have h1 : 1 ≤ fv1.getD 0 := (truthyN_iff fv1).1 hfv
      refine ⟨h1, Or.inr (le_refl _), Or.inl ?_⟩
      rcases Nat.eq_zero_or_pos fcN with h | h
      · exact absurd (hdeg h).1 (by simp [hfv])
      · exact h
    · rw [if_neg hfv] at ht
      rw [List.mem_map] at ht
      obtain ⟨bk, _, hbe⟩ := ht
      subst hbe
      refine ⟨le_refl 1, Or.inl rfl, ?_⟩
      rcases Nat.eq_zero_or_pos fcN with h | h
      · exact Or.inr ⟨h, rfl, rfl⟩
      · exact Or.inl h

theorem stInv_of_truthy (o : Option Nat) (h : truthyN o = true) : stInv o := by
  cases o with
  | none => trivial
  | some n => exact (truthyN_iff (some n)).1 h

theorem clausePost_inv (books : List Nat) (rt : Bool) (stA fcA fvA tcA tvA : Option Nat)
    (H1 : stInv stA) (H2 : fcA.getD 0 = 0 → truthyN fvA = false) :
    stInv (clausePost books rt stA fcA fvA tcA tvA).1 ∧
      ∀ t ∈ (clausePost books rt stA fcA fvA tcA tvA).2, refInv t := by
  rw [clausePost]
  by_cases h3 : truthyN tcA = true
  · rw [if_pos h3]
    by_cases h4 : truthyN fcA = true ∧ tcA.getD 0 < fcA.getD 0
    · rw [if_pos h4]
      exact ⟨H1, fun t ht => absurd ht (List.not_mem_nil t)⟩
    · rw [if_neg h4]
      refine ⟨stInv_of_truthy _ h3, clauseEmit_inv _ _ _ _ _ _ ?_⟩
      intro hfc0
      exact ⟨H2 hfc0, fun hc => absurd h3 (by simp [hc])⟩
  · rw [if_neg h3]
    by_cases h5 : truthyN tvA = true
    · rw [if_pos h5]
      by_cases h6 : truthyN stA = true
      · rw [if_pos h6]
        refine ⟨H1, clauseEmit_inv _ _ _ _ _ _ ?_⟩
        intro hfc0
        exact ⟨H2 hfc0, fun hc => absurd h6 (by simp [hc])⟩
      · rw [if_neg h6]
        refine ⟨H1, clauseEmit_inv _ _ _ _ _ _ ?_⟩
        intro hfc0
        exact ⟨H2 hfc0, fun hc => absurd h5 (by simp [hc])⟩
    · rw [if_neg h5]
      refine ⟨H1, clauseEmit_inv _ _ _ _ _ _ ?_⟩
      intro hfc0
      refine ⟨H2 hfc0, fun _ => ?_⟩
      simpa using h5

theorem clauseStep_inv (books : List Nat) (st : Option Nat) (m : RangeM)
    (h : stInv st) :
    stInv (clauseStep books st m).1 ∧ ∀ t ∈ (clauseStep books st m).2, refInv t := by
  rw [clauseStep]
  by_cases h1 : truthyN m.from_chapter = true
  · rw [if_pos h1]
    refine clausePost_inv _ _ _ _ _ _ _ (stInv_of_truthy _ h1) ?_
    intro h0
    rw [truthyN_iff] at h1
    exact absurd h0 (by omega)
  · rw [if_neg h1]
    by_cases h2 : truthyN st = true
    · rw [if_pos h2]
      refine clausePost_inv _ _ _ _ _ _ _ h ?_
      intro h0
      rw [truthyN_iff] at h2
      exact absurd h0 (by omega)
    · rw [if_neg h2]
      exact clausePost_inv _ _ _ _ _ _ _ h (fun _ => rfl)

theorem processPieces_inv (rm : List Char → Option RangeM) (books : List Nat)
    (ps : List (List Char)) :
    ∀ (st : Option Nat) (acc r : List Ref), stInv st → (∀ t ∈ acc, refInv t) →
      processPieces rm books ps st acc = some r → ∀ t ∈ r, refInv t := by
  induction ps with
  | nil =>
    intro st acc r _ hacc hp
    rw [processPieces] at hp
    cases hp
    exact hacc
  | cons p ps ih =>
    intro st acc r hst hacc hp
    rw [processPieces] at hp
    cases hm : rm p with
    | none => rw [hm] at hp; cases hp
    | some m =>
      rw [hm] at hp
      have hc := clauseStep_inv books st m hst
      refine ih _ _ _ hc.1 ?_ hp
      intro t ht
      rcases List.mem_append.1 ht with ht | ht
      · exact hacc t ht
      · exact hc.2 t ht

/-- C2 (amended): every tuple returned by `parse_reference` has
`from_verse ≥ 1` and `to_verse` either `-1` or at least `from_verse`;
its chapter is at least 1 except that a clause consisting of the bare
number 0, reinterpreted as a chapter, produces the tuple
`(book, 0, 1, -1)` (see the counterexample for the original claim). -/
theorem parse_normalization_invariant (reference : String) (bible : Bible)
    (lang : Nat) (bid : Option Nat) (r : List Ref)
    (h : parse_reference reference bible lang bid = some r) :
    ∀ t ∈ r, refInv t := by
  rw [parse_reference, parse_reference_t] at h
  cases hf : defaultTables.full_m reference with
  | none =>
    rw [hf] at h
    cases h
    intro t ht
    cases ht
  | some pr =>
    rw [hf] at h
    obtain ⟨book, ranges⟩ := pr
    simp only at h
    set books := (match bid with
      | none => bible.get_book_ref_id_by_localised_name book lang
      | some i => if bible.get_book_by_book_ref_id i then [i] else []) with hbooks
    by_cases he : books.isEmpty = true
    · rw [if_pos he] at h
      cases h
      intro t ht
      cases ht
    · rw [if_neg he] at h
      exact processPieces_inv _ books _ none [] r trivial (by intro t ht; cases ht) h

theorem parse_normalization_invariant_witness :
    refInv ((1 : Nat), (3 : Nat), (16 : Nat), (16 : Int)) :=
  parse_normalization_invariant "John 3:16" demoBible 0 none
    [((1 : Nat), (3 : Nat), (16 : Nat), (16 : Int))] (by decide)
    ((1 : Nat), (3 : Nat), (16 : Nat), (16 : Int)) (by decide)

theorem truthyN_none : truthyN none = false := rfl

theorem truthyN_some (n : Nat) : truthyN (some n) = (n != 0) := rfl

theorem clausePost_fst (books : List Nat) (rt : Bool) (stA fcA fvA tcA tvA : Option Nat) :
    (clausePost books rt stA fcA fvA tcA tvA).1 =
      if truthyN tcA = true ∧ ¬(truthyN fcA = true ∧ tcA.getD 0 < fcA.getD 0)
      then tcA else stA := by
  rw [clausePost]
  by_cases h3 : truthyN tcA = true
  · rw [if_pos h3]
    by_cases h4 : truthyN fcA = true ∧ tcA.getD 0 < fcA.getD 0
    · rw [if_pos h4, if_neg (by tauto)]
    · rw [if_neg h4, if_pos ⟨h3, h4⟩]
  · rw [if_neg h3]
    by_cases h5 : truthyN tvA = true
    · rw [if_pos h5]
      by_cases h6 : truthyN stA = true
      · rw [if_pos h6, if_neg (by tauto)]
      · rw [if_neg h6, if_neg (by tauto)]
    · rw [if_neg h5, if_neg (by tauto)]

/-- C3, as stated, is false: in `"John 3,16"` the clause `3` selects
chapter 3 (its bare number is reinterpreted as a chapter), so under the
claim the following clause `16` should be resolved as verse 16 of chapter
3, i.e. the output should end with `(book, 3, 16, 16)`; but a
reinterpreted bare chapter never updates the `chapter` variable, so the
code reinterprets `16` as a chapter as well. -/
theorem chapter_carry_counterexample :
    parse_reference "John 3,16" demoBible 0 none =
        some [(1, 3, 1, -1), (1, 16, 1, -1)] ∧
      parse_reference "John 3,16" demoBible 0 none ≠
        some [(1, 3, 1, -1), (1, 3, 16, 16)] := by
  constructor
  · decide
  · decide

/-- C3 (amended): a clause with no explicit truthy `from_chapter` group is
resolved in the carried chapter when one exists — processing it is
identical to processing the same clause with the carried chapter written
as its `from_chapter` — and otherwise reinterprets its single number as a
chapter; the carried chapter itself is set only by an explicit truthy
`from_chapter` group, overridden by an explicit truthy `to_chapter` group
unless the range is rejected as backwards, and in particular is never set
by a reinterpreted bare chapter number (`carryUpdate`). -/
theorem chapter_carry_over (books : List Nat) (st : Option Nat) (m : RangeM) :
    (clauseStep books st m).1 = carryUpdate st m ∧
    (truthyN m.from_chapter = false → truthyN st = true →
      clauseStep books st m = clauseStep books st { m with from_chapter := st }) ∧
    (truthyN st = false → ∀ n : Nat,
      clauseStep books st ⟨none, n, false, none, none⟩ =
        (st, books.map (fun b => (b, n, 1, (-1 : Int))))) := by
  refine ⟨?_, ?_, ?_⟩
  · rw [clauseStep, carryUpdate, carriedFromChapter]
    by_cases h1 : truthyN m.from_chapter = true
    · have hne : m.from_chapter.getD 0 ≠ 0 := by
        have := (truthyN_iff _).1 h1
        omega
      simp only [h1, if_true, clausePost_fst, hne, ne_eq, not_false_eq_true,
        true_and, eq_self_iff_true]
    · have hz : m.from_chapter.getD 0 = 0 := (truthyN_false_iff _).1 (by simpa using h1)
      simp only [h1, Bool.false_eq_true, if_false]
      by_cases h2 : truthyN st = true
      · have hne : st.getD 0 ≠ 0 := by
          have := (truthyN_iff _).1 h2
          omega
        simp only [h2, if_true, clausePost_fst, hne, ne_eq, not_false_eq_true, true_and]
      · have hvz : truthyN (some m.from_verse) = true ↔ m.from_verse ≠ 0 := by
          rw [truthyN_iff]
          simp only [Option.getD_some]
          omega
        simp only [h2, Bool.false_eq_true, if_false, clausePost_fst, hvz,
          Option.getD_some, ne_eq]
  · intro h1 h2
    rw [clauseStep, clauseStep]
    simp only [h1, Bool.false_eq_true, if_false, h2, if_true]
  · intro h2 n
    rw [clauseStep]
    rw [if_neg (by simp [truthyN_none])]
    rw [if_neg (by simp [h2])]
    rw [clausePost]
    rw [if_neg (by simp [truthyN_none])]
    rw [if_neg (by simp [truthyN_none])]
    rw [clauseEmit]
    rw [if_neg (by simp)]
    rw [if_neg (by simp [truthyN_none])]
    simp only [Option.getD_some]

theorem chapter_carry_over_witness :
    (clauseStep [1] (some 3) ⟨none, 7, false, none, none⟩).1 =
        carryUpdate (some 3) ⟨none, 7, false, none, none⟩ ∧
      clauseStep [1] (some 3) ⟨none, 7, false, none, none⟩ =
        clauseStep [1] (some 3) ⟨some 3, 7, false, none, none⟩ ∧
      clauseStep [1] none ⟨none, 7, false, none, none⟩ =
        (none, [(1, 7, 1, (-1 : Int))]) :=
  ⟨(chapter_carry_over [1] (some 3) ⟨none, 7, false, none, none⟩).1,
   (chapter_carry_over [1] (some 3) ⟨none, 7, false, none, none⟩).2.1 rfl rfl,
   (chapter_carry_over [1] none ⟨none, 7, false, none, none⟩).2.2 rfl 7⟩

theorem flatten_map_singleton {α β : Type} (l : List α) (f : α → β) :
    (l.map (fun a => [f a])).flatten = l.map f := by
  induction l with
  | nil => rfl
  | cons a t ih => simp only [List.map_cons, List.flatten_cons, ih, List.cons_append,
      List.nil_append, List.singleton_append]

/-- C4: a clause whose range part is present but carries neither a
`to_chapter` nor a `to_verse` group (it ended with the end separator, or
with nothing after the range separator) emits exactly one tuple per book
with `to_verse = -1`; and a bare chapter reference yields
`(book, c, 1, -1)`, as the concrete examples show. -/
theorem open_ended_ranges (books : List Nat) (st : Option Nat) (m : RangeM)
    (hrt : m.range_to = true) (htc : m.to_chapter = none) (htv : m.to_verse = none) :
    (clauseStep books st m).2 =
      books.map (fun b => (b, carriedFromChapter st m,
        if ((truthyN m.from_chapter || truthyN st) && (m.from_verse != 0)) = true
          then m.from_verse else 1, (-1 : Int))) ∧
    parse_reference "John 3:16-end" demoBible 0 none = some [(1, 3, 16, -1)] ∧
    parse_reference "John 3:16-" demoBible 0 none = some [(1, 3, 16, -1)] ∧
    parse_reference "John 3" demoBible 0 none = some [(1, 3, 1, -1)] := by
  refine ⟨?_, by decide, by decide, by decide⟩
  have hpost : ∀ stA fcA fvA : Option Nat,
      clausePost books true stA fcA fvA none none =
        (stA, books.map (fun b => (b, fcA.getD 0,
          if truthyN fvA = true then fvA.getD 0 else 1, (-1 : Int)))) := by
    intro stA fcA fvA
    rw [clausePost]
    rw [if_neg (by simp [truthyN_none])]
    rw [if_neg (by simp [truthyN_none])]
    rw [clauseEmit, if_pos rfl]
    simp only [truthyN_none, Bool.false_eq_true, not_false_eq_true, if_true,
      Option.getD_none]
    have hone : ∀ b, parseRefRangeEmit b (fcA.getD 0)
        (if ¬truthyN fvA = true then 1 else fvA.getD 0) 0 (-1) =
        [(b, fcA.getD 0, if truthyN fvA = true then fvA.getD 0 else 1, (-1 : Int))] := by
      intro b
      rw [parseRefRangeEmit]
      rw [if_neg (by omega)]
      rw [if_pos (Or.inr rfl)]
      by_cases h3 : truthyN fvA = true
      · simp [h3]
      · simp [h3]
    simp only [hone, flatten_map_singleton]
  rw [clauseStep, hrt, htc, htv]
  by_cases h1 : truthyN m.from_chapter = true
  · rw [if_pos h1, hpost]
    simp only [carriedFromChapter, h1, if_true, Bool.true_or, Bool.true_and,
      truthyN_some, Option.getD_some]
  · rw [if_neg h1]
    rw [show truthyN m.from_chapter = false by simpa using h1]
    simp only [Bool.false_or]
    by_cases h2 : truthyN st = true
    · rw [if_pos h2, hpost]
      simp only [carriedFromChapter, h1, Bool.false_eq_true, if_false, h2, if_true,
        Bool.true_and, truthyN_some, Option.getD_some]
    · rw [if_neg h2, hpost]
      rw [show truthyN st = false by simpa using h2]
      simp only [carriedFromChapter, h1, h2, Bool.false_eq_true, if_false,
        Bool.false_and, truthyN_none, Option.getD_some]

theorem open_ended_ranges_witness :
    (clauseStep [2] none ⟨some 3, 16, true, none, none⟩).2 =
        [2].map (fun b => (b, carriedFromChapter none ⟨some 3, 16, true, none, none⟩,
          if ((truthyN (some 3) || truthyN none) && ((16 : Nat) != 0)) = true
            then 16 else 1, (-1 : Int))) ∧
      parse_reference "John 3:16-end" demoBible 0 none = some [(1, 3, 16, -1)] ∧
      parse_reference "John 3:16-" demoBible 0 none = some [(1, 3, 16, -1)] ∧
      parse_reference "John 3" demoBible 0 none = some [(1, 3, 1, -1)] :=
  open_ended_ranges [2] none ⟨some 3, 16, true, none, none⟩ rfl rfl rfl

/-- C5: an accepted clause spanning from chapter `c1` verse `v1` to chapter
`c2` (verse `v2`, or no to-verse) with `c1 < c2` appends, per book and in
this order, `(b, c1, v1, -1)`, then `(b, i, 1, -1)` for the intermediate
chapters in ascending order, then `(b, c2, 1, v2)` — with `-1` as the final
to-verse when the to-verse is absent — and carries chapter `c2`. -/
theorem cross_chapter_expansion (books : List Nat) (st : Option Nat)
    (c1 v1 c2 : Nat) (tvo : Option Nat) (h1 : 1 ≤ c1) (h2 : 1 ≤ v1) (h3 : c1 < c2)
    (h4 : tvo = none ∨ ∃ v2, tvo = some v2 ∧ 1 ≤ v2) :
    clauseStep books st ⟨some c1, v1, true, some c2, tvo⟩ =
      (some c2,
        (books.map (fun b =>
          (b, c1, v1, (-1 : Int)) ::
            (List.range' (c1 + 1) (c2 - (c1 + 1))).map (fun i => (b, i, 1, (-1 : Int))) ++
            [(b, c2, 1, (match tvo with
              | none => (-1 : Int)
              | some v => (v : Int)))])).flatten) ∧
    parse_reference "John 3:16-5:2" demoBible 0 none =
      some [(1, 3, 16, -1), (1, 4, 1, -1), (1, 5, 1, 2)] := by
  refine ⟨?_, by decide⟩
  have t1 : truthyN (some c1) = true := by
    rw [truthyN_iff]
    simpa using h1
  have t2 : truthyN (some c2) = true := by
    rw [truthyN_iff]
    simp only [Option.getD_some]
    omega
  have t3 : truthyN (some v1) = true := by
    rw [truthyN_iff]
    simpa using h2
  rw [clauseStep]
  simp only [t1, if_true, clausePost, t2, Option.getD_some]
  rw [if_neg (by simp only [t1, true_and]; omega)]
  rw [clauseEmit]
  simp only [if_true, t3, not_true_eq_false, Bool.false_eq_true, if_false,
    Option.getD_some]
  rcases h4 with h4 | ⟨v2, h4, hv2⟩
  · subst h4
    simp only [truthyN_none, Bool.false_eq_true, not_false_eq_true, if_true,
      Option.getD_none]
    congr 1
    congr 1
    apply List.map_congr_left
    intro b _
    rw [parseRefRangeEmit, if_pos ⟨by omega, h3⟩]
  · subst h4
    have t4 : truthyN (some v2) = true := by
      rw [truthyN_iff]
      simpa using hv2
    simp only [t4, not_true_eq_false, Bool.false_eq_true, if_false, Option.getD_some]
    congr 1
    congr 1
    apply List.map_congr_left
    intro b _
    rw [parseRefRangeEmit, if_pos ⟨by omega, h3⟩]

theorem cross_chapter_expansion_witness :
    clauseStep [1] none ⟨some 3, 16, true, some 5, some 2⟩ =
      (some 5,
        ([1].map (fun b =>
          (b, 3, 16, (-1 : Int)) ::
            (List.range' (3 + 1) (5 - (3 + 1))).map (fun i => (b, i, 1, (-1 : Int))) ++
            [(b, 5, 1, (match (some 2 : Option Nat) with
              | none => (-1 : Int)
              | some v => (v : Int)))])).flatten) ∧
    parse_reference "John 3:16-5:2" demoBible 0 none =
      some [(1, 3, 16, -1), (1, 4, 1, -1), (1, 5, 1, 2)] :=
  cross_chapter_expansion [1] none 3 16 5 (some 2) (by decide) (by decide) (by decide)
    (Or.inr ⟨2, rfl, by decide⟩)

/-!
### Toolbox for the re-match totality proof (C6)
-/

theorem stripPfx_eq (t : List Char) : ∀ l r, stripPfx t l = some r → l = t ++ r := by
  induction t with
  | nil =>
    intro l r h
    rw [stripPfx] at h
    cases h
    rfl
  | cons c cs ih =>
    intro l r h
    cases l with
    | nil => rw [stripPfx] at h; cases h
    | cons a as =>
      rw [stripPfx] at h
      split_ifs at h with hc
      subst hc
      exact congrArg (List.cons a) (ih as r h)

theorem stripPfx_append (t r : List Char) : stripPfx t (t ++ r) = some r := by
  induction t with
  | nil => rfl
  | cons c cs ih => rw [List.cons_append, stripPfx, if_pos rfl, ih]

theorem allWS_iff (l : List Char) : allWS l = true ↔ ∀ ch ∈ l, isWS ch = true := by
  rw [allWS, List.all_eq_true]

theorem allWS_append (a b : List Char) : allWS (a ++ b) = (allWS a && allWS b) := by
  rw [allWS, allWS, allWS, List.all_append]

theorem isDig_not_ws (x : Char) (h : isDig x = true) : isWS x = false := by
  by_contra hc
  rw [Bool.not_eq_false, isWS] at hc
  simp only [Bool.or_eq_true, beq_iff_eq, or_assoc] at hc
  rcases hc with hc|hc|hc|hc|hc|hc <;> subst hc <;> exact absurd h (by decide)

theorem sepLFree_intro (ch : Char) (h1 : ch ≠ ',') (h2 : ch ≠ '‚') (h3 : ch ≠ 'a') :
    sepLFree ch = true := by
  rw [sepLFree]
  simp [h1, h2, h3]

theorem sepLFree_of_ws (ch : Char) (h : isWS ch = true) : sepLFree ch = true := by
  rw [isWS] at h
  simp only [Bool.or_eq_true, beq_iff_eq, or_assoc] at h
  rcases h with h|h|h|h|h|h <;> subst h <;> decide

theorem sepLFree_of_dig (ch : Char) (h : isDig ch = true) : sepLFree ch = true := by
  refine sepLFree_intro ch ?_ ?_ ?_ <;> intro hc <;> subst hc <;> exact absurd h (by decide)

theorem sepLFree_of_allWS (w : List Char) (h : allWS w = true) :
    ∀ ch ∈ w, sepLFree ch = true := by
  intro ch hm
  exact sepLFree_of_ws ch ((allWS_iff w).1 h ch hm)

theorem head?_dropWhile_not (p : Char → Bool) :
    ∀ (l : List Char) (x : Char), ((l.dropWhile p).head? = some x) → p x = false := by
  intro l
  induction l with
  | nil => intro x h; simp [List.dropWhile] at h
  | cons a t ih =>
    intro x h
    rw [List.dropWhile_cons] at h
    split_ifs at h with hp
    · exact ih x h
    · rw [List.head?_cons, Option.some_inj] at h
      subst h
      simpa using hp

theorem trimTrail_append_wsTrail (l : List Char) : trimTrail l ++ wsTrail l = l := by
  rw [trimTrail, wsTrail, ← List.reverse_append, List.takeWhile_append_dropWhile,
    List.reverse_reverse]

theorem allWS_wsTrail (l : List Char) : allWS (wsTrail l) = true := by
  rw [wsTrail, allWS, List.all_reverse, List.all_eq_true]
  intro x hx
  exact List.mem_takeWhile_imp hx

theorem mem_trimTrail (l : List Char) (x : Char) (h : x ∈ trimTrail l) : x ∈ l := by
  have := trimTrail_append_wsTrail l
  rw [← this]
  exact List.mem_append.2 (Or.inl h)

theorem trimTrail_cons_nonws (d : Char) (t : List Char) (h : isWS d = false) :
    trimTrail (d :: t) = d :: trimTrail t := by
  rw [trimTrail, trimTrail, List.reverse_cons, List.dropWhile_append]
  by_cases hcase : (List.dropWhile isWS t.reverse).isEmpty = true
  · rw [if_pos hcase]
    rw [List.isEmpty_iff] at hcase
    rw [hcase]
    have hd : List.dropWhile isWS [d] = [d] := by
      rw [show ([d] : List Char) = d :: [] from rfl,
        List.dropWhile_cons_of_neg (by simp [h])]
    rw [hd]
    rfl
  · rw [if_neg hcase]
    rw [List.reverse_append]
    rfl

theorem trimTrail_drop_not_ws (l : List Char) :
    ∀ k, k < (trimTrail l).length → allWS ((trimTrail l).drop k) = false := by
  intro k hk
  rw [trimTrail] at hk ⊢
  cases hD : l.reverse.dropWhile isWS with
  | nil => rw [hD] at hk; simp at hk
  | cons x xs =>
    have hx : isWS x = false := head?_dropWhile_not isWS l.reverse x (by rw [hD]; rfl)
    rw [hD] at hk
    rw [List.reverse_cons] at hk ⊢
    have hkle : k ≤ xs.reverse.length := by
      simp only [List.length_append, List.length_reverse, List.length_cons,
        List.length_nil] at hk ⊢
      omega
    rw [List.drop_append_of_le_length hkle]
    rw [allWS_append]
    simp [allWS, hx]

theorem takeWhile_of_all (p : Char → Bool) (a r : List Char) (ha : ∀ x ∈ a, p x = true)
    (hr : ∀ x, r.head? = some x → p x = false) :
    (a ++ r).takeWhile p = a ∧ (a ++ r).dropWhile p = r := by
  constructor
  · rw [List.takeWhile_append_of_pos ha]
    cases r with
    | nil => simp
    | cons x t =>
      rw [List.takeWhile_cons_of_neg (by simp [hr x rfl])]
      simp
  · rw [List.dropWhile_append_of_pos ha]
    cases r with
    | nil => simp
    | cons x t => rw [List.dropWhile_cons_of_neg (by simp [hr x rfl])]

theorem allWS_takeWhile (l : List Char) : allWS (l.takeWhile isWS) = true := by
  rw [allWS_iff]
  intro ch hm
  exact List.mem_takeWhile_imp hm

theorem digits1_sound (l d r : List Char) (h : digits1 l = some (d, r)) :
    l = d ++ r ∧ d ≠ [] ∧ (∀ x ∈ d, isDig x = true) ∧
      (∀ x, r.head? = some x → isDig x = false) := by
  rw [digits1] at h
  cases htw : l.takeWhile isDig with
  | nil => rw [htw] at h; cases h
  | cons y ys =>
    rw [htw] at h
    have h1 : (y :: ys, l.dropWhile isDig) = (d, r) := Option.some.inj h
    cases h1
    refine ⟨?_, by simp, ?_, ?_⟩
    · conv_lhs => rw [← List.takeWhile_append_dropWhile (p := isDig) (l := l)]
      rw [htw]
    · intro x hx
      rw [← htw] at hx
      exact List.mem_takeWhile_imp hx
    · intro x hx
      exact head?_dropWhile_not isDig l x hx

theorem digits1_run (d r : List Char) (hne : d ≠ []) (hall : ∀ x ∈ d, isDig x = true)
    (hr : ∀ x, r.head? = some x → isDig x = false) :
    digits1 (d ++ r) = some (d, r) := by
  obtain ⟨ht, hd⟩ := takeWhile_of_all isDig d r hall hr
  rw [digits1, ht, hd]
  cases d with
  | nil => exact absurd rfl hne
  | cons x t => rfl

theorem isHyphenSep_not_ws (c : Char) (h : isHyphenSep c = true) : isWS c = false := by
  rw [isHyphenSep] at h
  simp only [Bool.or_eq_true, beq_iff_eq, or_assoc] at h
  rcases h with h|h|h|h|h|h|h|h|h <;> subst h <;> decide

theorem digitAhead_cons_nonws (c : Char) (l : List Char) (h : isWS c = false) :
    digitAhead (c :: l) = isDig c := by
  rw [digitAhead, List.dropWhile_cons_of_neg (by simp [h])]

theorem digitAhead_run (w r : List Char) (x : Char) (t : List Char)
    (hw : allWS w = true) (hr : r = x :: t) (hx : isDig x = true) :
    digitAhead (w ++ r) = true := by
  subst hr
  rw [digitAhead]
  rw [List.dropWhile_append_of_pos ((allWS_iff w).1 hw)]
  rw [List.dropWhile_cons_of_neg (by simp [isDig_not_ws x hx])]
  exact hx

theorem sepR_eq_cons (l : List Char) (c : Char) (cs : List Char)
    (hd : l.dropWhile isWS = c :: cs) :
    sepR l = if isHyphenSep c then
        some (l.takeWhile isWS ++ [c] ++ cs.takeWhile isWS, cs.dropWhile isWS)
      else
        match stripPfx ['t', 'o'] (c :: cs) with
        | some r2 =>
          some (l.takeWhile isWS ++ ['t', 'o'] ++ r2.takeWhile isWS, r2.dropWhile isWS)
        | none => none := by
  rw [sepR, hd]

theorem sepR_run_hyphen (w1 rest : List Char) (hc : Char)
    (hw1 : allWS w1 = true) (hh : isHyphenSep hc = true) :
    sepR (w1 ++ hc :: rest) =
      some (w1 ++ [hc] ++ rest.takeWhile isWS, rest.dropWhile isWS) := by
  have hx : ∀ x, ((hc :: rest) : List Char).head? = some x → isWS x = false := by
    intro x hx
    rw [List.head?_cons, Option.some_inj] at hx
    subst hx
    exact isHyphenSep_not_ws hc hh
  obtain ⟨ht, hd⟩ := takeWhile_of_all isWS w1 (hc :: rest) ((allWS_iff w1).1 hw1) hx
  rw [sepR_eq_cons _ _ _ hd, if_pos hh, ht]

theorem sepR_run_to (w1 rest : List Char) (hw1 : allWS w1 = true) :
    sepR (w1 ++ 't' :: 'o' :: rest) =
      some (w1 ++ ['t', 'o'] ++ rest.takeWhile isWS, rest.dropWhile isWS) := by
  have hx : ∀ x, (('t' :: 'o' :: rest) : List Char).head? = some x → isWS x = false := by
    intro x hx
    rw [List.head?_cons, Option.some_inj] at hx
    subst hx
    decide
  obtain ⟨ht, hd⟩ := takeWhile_of_all isWS w1 ('t' :: 'o' :: rest) ((allWS_iff w1).1 hw1) hx
  rw [sepR_eq_cons _ _ _ hd, if_neg (by decide),
    show stripPfx ['t', 'o'] ('t' :: 'o' :: rest) = some rest from stripPfx_append ['t', 'o'] rest, ht]

theorem sepE_run (w1 rest : List Char) (hw1 : allWS w1 = true) :
    sepE (w1 ++ 'e' :: 'n' :: 'd' :: rest) =
      some (w1 ++ ['e', 'n', 'd'] ++ rest.takeWhile isWS, rest.dropWhile isWS) := by
  have hx : ∀ x, (('e' :: 'n' :: 'd' :: rest) : List Char).head? = some x → isWS x = false := by
    intro x hx
    rw [List.head?_cons, Option.some_inj] at hx
    subst hx
    decide
  obtain ⟨ht, hd⟩ :=
    takeWhile_of_all isWS w1 ('e' :: 'n' :: 'd' :: rest) ((allWS_iff w1).1 hw1) hx
  rw [sepE, hd,
    show stripPfx ['e', 'n', 'd'] ('e' :: 'n' :: 'd' :: rest) = some rest from stripPfx_append ['e', 'n', 'd'] rest,
    ht]

theorem ws_not_dig (x : Char) (h : isWS x = true) : isDig x = false := by
  cases hd : isDig x with
  | false => rfl
  | true => exact absurd h (by simp [isDig_not_ws x hd])

theorem digitAhead_sound (rr : List Char) (h : digitAhead rr = true) :
    ∃ x t, rr.dropWhile isWS = x :: t ∧ isDig x = true := by
  rw [digitAhead] at h
  cases hD : rr.dropWhile isWS with
  | nil => rw [hD] at h; cases h
  | cons x t =>
    rw [hD] at h
    exact ⟨x, t, rfl, h⟩

theorem sepVGo_sound : ∀ (toks : List (List Char)) (l c r : List Char),
    sepVGo toks l = some (c, r) →
    ∃ tok ∈ toks, ∃ rr, stripPfx tok l = some rr ∧ digitAhead rr = true ∧
      c = tok ++ rr.takeWhile isWS ∧ r = rr.dropWhile isWS := by
  intro toks
  induction toks with
  | nil => intro l c r h; rw [sepVGo] at h; cases h
  | cons t ts ih =>
    intro l c r h
    rw [sepVGo] at h
    cases hsp : stripPfx t l with
    | none =>
      simp only [hsp] at h
      obtain ⟨tok, hm, rr, h1, h2, h3, h4⟩ := ih l c r h
      exact ⟨tok, List.mem_cons_of_mem _ hm, rr, h1, h2, h3, h4⟩
    | some rr =>
      simp only [hsp] at h
      by_cases hda : digitAhead rr = true
      · rw [if_pos hda] at h
        have h1 : (t ++ rr.takeWhile isWS, rr.dropWhile isWS) = (c, r) := Option.some.inj h
        cases h1
        exact ⟨t, List.mem_cons_self _ _, rr, hsp, hda, rfl, rfl⟩
      · rw [if_neg hda] at h
        obtain ⟨tok, hm, rr', h1, h2, h3, h4⟩ := ih l c r h
        exact ⟨tok, List.mem_cons_of_mem _ hm, rr', h1, h2, h3, h4⟩

theorem sepV_sound (l c r : List Char) (h : sepV l = some (c, r)) :
    ∃ w1 tok w2, c = w1 ++ (tok ++ w2) ∧ allWS w1 = true ∧ tok ∈ sepVToks ∧
      allWS w2 = true ∧ l = c ++ r ∧ ∃ x t, r = x :: t ∧ isDig x = true := by
  rw [sepV] at h
  cases hgo : sepVGo sepVToks (l.dropWhile isWS) with
  | none => rw [hgo] at h; cases h
  | some p =>
    obtain ⟨c0, r0⟩ := p
    rw [hgo] at h
    have hpair : (l.takeWhile isWS ++ c0, r0) = (c, r) := Option.some.inj h
    have hc : l.takeWhile isWS ++ c0 = c := congrArg Prod.fst hpair
    have hr : r0 = r := congrArg Prod.snd hpair
    obtain ⟨tok, hm, rr, hsp, hda, hC, hR⟩ := sepVGo_sound sepVToks _ c0 r0 hgo
    obtain ⟨x, t, hxt, hx⟩ := digitAhead_sound rr hda
    refine ⟨l.takeWhile isWS, tok, rr.takeWhile isWS, ?_, allWS_takeWhile l, hm,
      allWS_takeWhile rr, ?_, x, t, ?_, hx⟩
    · rw [← hc, hC]
    · rw [← hc, ← hr, hC, hR]
      have hl : l = l.takeWhile isWS ++ l.dropWhile isWS :=
        (List.takeWhile_append_dropWhile (p := isWS) (l := l)).symm
      have hdw : l.dropWhile isWS = tok ++ rr := stripPfx_eq tok _ rr hsp
      have hrr : rr = rr.takeWhile isWS ++ rr.dropWhile isWS :=
        (List.takeWhile_append_dropWhile (p := isWS) (l := rr)).symm
      conv_lhs => rw [hl, hdw]
      conv_lhs => rw [hrr]
      simp [List.append_assoc]
    · rw [← hr, hR, hxt]

theorem sepVGo_run_colon (X : List Char) (hX : digitAhead X = true) :
    sepVGo sepVToks (':' :: X) =
      some ([':'] ++ X.takeWhile isWS, X.dropWhile isWS) := by
  have h0 : stripPfx [':'] (':' :: X) = some X := stripPfx_append [':'] X
  simp only [sepVToks, sepVGo, h0, hX, eq_self_iff_true, if_true]

theorem sepVGo_run_v (X : List Char) (hX : digitAhead X = true) :
    sepVGo sepVToks ('v' :: X) =
      some (['v'] ++ X.takeWhile isWS, X.dropWhile isWS) := by
  have h1 : stripPfx [':'] ('v' :: X) = none := by rw [stripPfx, if_neg (by decide)]
  have h0 : stripPfx ['v'] ('v' :: X) = some X := stripPfx_append ['v'] X
  simp only [sepVToks, sepVGo, h1, h0, hX, eq_self_iff_true, if_true]

theorem sepVGo_run_V (X : List Char) (hX : digitAhead X = true) :
    sepVGo sepVToks ('V' :: X) =
      some (['V'] ++ X.takeWhile isWS, X.dropWhile isWS) := by
  have h1 : stripPfx [':'] ('V' :: X) = none := by rw [stripPfx, if_neg (by decide)]
  have h2 : stripPfx ['v'] ('V' :: X) = none := by rw [stripPfx, if_neg (by decide)]
  have h0 : stripPfx ['V'] ('V' :: X) = some X := stripPfx_append ['V'] X
  simp only [sepVToks, sepVGo, h1, h2, h0, hX, eq_self_iff_true, if_true]

theorem sepVGo_run_verse (X : List Char) (hX : digitAhead X = true) :
    sepVGo sepVToks ('v' :: 'e' :: 'r' :: 's' :: 'e' :: X) =
      some (['v', 'e', 'r', 's', 'e'] ++ X.takeWhile isWS, X.dropWhile isWS) := by
  have h1 : stripPfx [':'] ('v' :: 'e' :: 'r' :: 's' :: 'e' :: X) = none := by
    rw [stripPfx, if_neg (by decide)]
  have h2 : stripPfx ['v'] ('v' :: 'e' :: 'r' :: 's' :: 'e' :: X) =
      some ('e' :: 'r' :: 's' :: 'e' :: X) :=
    stripPfx_append ['v'] ('e' :: 'r' :: 's' :: 'e' :: X)
  have h2' : digitAhead ('e' :: 'r' :: 's' :: 'e' :: X) = false := by
    rw [digitAhead_cons_nonws _ _ (by decide)]
    decide
  have h3 : stripPfx ['V'] ('v' :: 'e' :: 'r' :: 's' :: 'e' :: X) = none := by
    rw [stripPfx, if_neg (by decide)]
  have h4 : stripPfx ['v', 'e', 'r', 's', 'e'] ('v' :: 'e' :: 'r' :: 's' :: 'e' :: X) =
      some X := stripPfx_append ['v', 'e', 'r', 's', 'e'] X
  simp only [sepVToks, sepVGo, h1, h2, h2', h3, h4, hX, eq_self_iff_true, if_true,
    Bool.false_eq_true, if_false]

theorem sepVGo_run_verses (X : List Char) (hX : digitAhead X = true) :
    sepVGo sepVToks ('v' :: 'e' :: 'r' :: 's' :: 'e' :: 's' :: X) =
      some (['v', 'e', 'r', 's', 'e', 's'] ++ X.takeWhile isWS, X.dropWhile isWS) := by
  have h1 : stripPfx [':'] ('v' :: 'e' :: 'r' :: 's' :: 'e' :: 's' :: X) = none := by
    rw [stripPfx, if_neg (by decide)]
  have h2 : stripPfx ['v'] ('v' :: 'e' :: 'r' :: 's' :: 'e' :: 's' :: X) =
      some ('e' :: 'r' :: 's' :: 'e' :: 's' :: X) :=
    stripPfx_append ['v'] ('e' :: 'r' :: 's' :: 'e' :: 's' :: X)
  have h2' : digitAhead ('e' :: 'r' :: 's' :: 'e' :: 's' :: X) = false := by
    rw [digitAhead_cons_nonws _ _ (by decide)]
    decide
  have h3 : stripPfx ['V'] ('v' :: 'e' :: 'r' :: 's' :: 'e' :: 's' :: X) = none := by
    rw [stripPfx, if_neg (by decide)]
  have h4 : stripPfx ['v', 'e', 'r', 's', 'e']
      ('v' :: 'e' :: 'r' :: 's' :: 'e' :: 's' :: X) = some ('s' :: X) :=
    stripPfx_append ['v', 'e', 'r', 's', 'e'] ('s' :: X)
  have h4' : digitAhead ('s' :: X) = false := by
    rw [digitAhead_cons_nonws _ _ (by decide)]
    decide
  have h5 : stripPfx ['v', 'e', 'r', 's', 'e', 's']
      ('v' :: 'e' :: 'r' :: 's' :: 'e' :: 's' :: X) = some X :=
    stripPfx_append ['v', 'e', 'r', 's', 'e', 's'] X
  simp only [sepVToks, sepVGo, h1, h2, h2', h3, h4, h4', h5, hX, eq_self_iff_true,
    if_true, Bool.false_eq_true, if_false]

theorem sepV_run (w1 tok w2 r : List Char) (hw1 : allWS w1 = true)
    (htok : tok ∈ sepVToks) (hw2 : allWS w2 = true)
    (hr : ∃ x t, r = x :: t ∧ isDig x = true) :
    sepV (w1 ++ tok ++ (w2 ++ r)) = some (w1 ++ (tok ++ w2), r) := by
  obtain ⟨x, t, hxt, hx⟩ := hr
  have hda : digitAhead (w2 ++ r) = true := digitAhead_run w2 r x t hw2 hxt hx
  have htw : (w2 ++ r).takeWhile isWS = w2 ∧ (w2 ++ r).dropWhile isWS = r := by
    refine takeWhile_of_all isWS w2 r ((allWS_iff w2).1 hw2) ?_
    intro y hy
    rw [hxt, List.head?_cons, Option.some_inj] at hy
    subst hy
    exact isDig_not_ws x hx
  have hgo : sepVGo sepVToks (tok ++ (w2 ++ r)) =
      some (tok ++ w2, r) := by
    simp only [sepVToks, List.mem_cons, List.not_mem_nil, or_false] at htok
    rcases htok with h|h|h|h|h
    all_goals subst h
    · rw [show ([':'] ++ (w2 ++ r) : List Char) = ':' :: (w2 ++ r) from rfl,
        sepVGo_run_colon _ hda, htw.1, htw.2]
    · rw [show (['v'] ++ (w2 ++ r) : List Char) = 'v' :: (w2 ++ r) from rfl,
        sepVGo_run_v _ hda, htw.1, htw.2]
    · rw [show (['V'] ++ (w2 ++ r) : List Char) = 'V' :: (w2 ++ r) from rfl,
        sepVGo_run_V _ hda, htw.1, htw.2]
    · rw [show (['v', 'e', 'r', 's', 'e'] ++ (w2 ++ r) : List Char) =
          'v' :: 'e' :: 'r' :: 's' :: 'e' :: (w2 ++ r) from rfl,
        sepVGo_run_verse _ hda, htw.1, htw.2]
    · rw [show (['v', 'e', 'r', 's', 'e', 's'] ++ (w2 ++ r) : List Char) =
          'v' :: 'e' :: 'r' :: 's' :: 'e' :: 's' :: (w2 ++ r) from rfl,
        sepVGo_run_verses _ hda, htw.1, htw.2]
  have hhead : ∀ y, (tok ++ (w2 ++ r)).head? = some y → isWS y = false := by
    simp only [sepVToks, List.mem_cons, List.not_mem_nil, or_false] at htok
    intro y hy
    rcases htok with h|h|h|h|h <;> subst h <;>
      (rw [List.cons_append, List.head?_cons, Option.some_inj] at hy; subst hy; decide)
  obtain ⟨htw1, hdw1⟩ :=
    takeWhile_of_all isWS w1 (tok ++ (w2 ++ r)) ((allWS_iff w1).1 hw1) hhead
  rw [sepV, List.append_assoc, hdw1, hgo, htw1]

theorem isHyphenSep_sepLFree (c : Char) (h : isHyphenSep c = true) : sepLFree c = true := by
  rw [isHyphenSep] at h
  simp only [Bool.or_eq_true, beq_iff_eq, or_assoc] at h
  rcases h with h|h|h|h|h|h|h|h|h <;> subst h <;> decide

theorem isHyphenSep_not_dig (c : Char) (h : isHyphenSep c = true) : isDig c = false := by
  rw [isHyphenSep] at h
  simp only [Bool.or_eq_true, beq_iff_eq, or_assoc] at h
  rcases h with h|h|h|h|h|h|h|h|h <;> subst h <;> decide

theorem sepVTok_head (tok : List Char) (h : tok ∈ sepVToks) :
    ∃ x t, tok = x :: t ∧ isDig x = false ∧ isWS x = false := by
  simp only [sepVToks, List.mem_cons, List.not_mem_nil, or_false] at h
  rcases h with h|h|h|h|h <;> subst h
  · exact ⟨':', _, rfl, by decide, by decide⟩
  · exact ⟨'v', _, rfl, by decide, by decide⟩
  · exact ⟨'V', _, rfl, by decide, by decide⟩
  · exact ⟨'v', _, rfl, by decide, by decide⟩
  · exact ⟨'v', _, rfl, by decide, by decide⟩

theorem sepVTok_sepLFree (tok : List Char) (h : tok ∈ sepVToks) :
    ∀ ch ∈ tok, sepLFree ch = true := by
  simp only [sepVToks, List.mem_cons, List.not_mem_nil, or_false] at h
  rcases h with h|h|h|h|h <;> subst h <;> decide

theorem sepLTok_head (tok : List Char) (h : tok ∈ sepLToks) :
    ∃ x t, tok = x :: t ∧ isWS x = false := by
  simp only [sepLToks, List.mem_cons, List.not_mem_nil, or_false] at h
  rcases h with h|h|h <;> subst h
  · exact ⟨',', _, rfl, by decide⟩
  · exact ⟨'‚', _, rfl, by decide⟩
  · exact ⟨'a', _, rfl, by decide⟩

theorem sepLTok_ne_nil (tok : List Char) (h : tok ∈ sepLToks) : tok ≠ [] := by
  obtain ⟨x, t, hx, _⟩ := sepLTok_head tok h
  simp [hx]

theorem sepLFree_app (A B : List Char) (hA : ∀ ch ∈ A, sepLFree ch = true)
    (hB : ∀ ch ∈ B, sepLFree ch = true) : ∀ ch ∈ A ++ B, sepLFree ch = true := by
  intro ch hm
  rcases List.mem_append.1 hm with hm|hm
  · exact hA ch hm
  · exact hB ch hm

theorem exists_nonws_of_not_allWS (l : List Char) (h : allWS l = false) :
    ∃ z ∈ l, isWS z = false := by
  rw [allWS] at h
  rcases List.all_eq_false.1 h with ⟨z, hz, hzw⟩
  exact ⟨z, hz, by simpa using hzw⟩

theorem dropWhile_ws_append (W L : List Char) (h : allWS W = true) :
    (W ++ L).dropWhile isWS = L.dropWhile isWS := by
  rw [List.dropWhile_append]
  have hW : W.dropWhile isWS = [] := by
    rw [List.dropWhile_eq_nil_iff]
    intro x hx
    exact (allWS_iff W).1 h x hx
  rw [hW]
  simp

theorem takeWhile_ws_append (W L : List Char) (h : allWS W = true) :
    (W ++ L).takeWhile isWS = W ++ L.takeWhile isWS := by
  rw [List.takeWhile_append_of_pos ((allWS_iff W).1 h)]

theorem head_not_dig_pre (w m R : List Char) (x0 : Char) (t0 : List Char)
    (hw : allWS w = true) (hm : m = x0 :: t0) (hx : isDig x0 = false) :
    ∀ x, (w ++ (m ++ R)).head? = some x → isDig x = false := by
  intro x hhx
  cases w with
  | nil =>
    subst hm
    rw [List.nil_append, List.cons_append, List.head?_cons, Option.some_inj] at hhx
    subst hhx
    exact hx
  | cons y ys =>
    rw [List.cons_append, List.head?_cons, Option.some_inj] at hhx
    subst hhx
    exact ws_not_dig _ ((allWS_iff _).1 hw _ (List.mem_cons_self _ _))

theorem trimTrail_append_ws (A W : List Char) (hW : allWS W = true)
    (hA : ∀ x, A.getLast? = some x → isWS x = false) : trimTrail (A ++ W) = A := by
  rw [trimTrail, List.reverse_append, List.dropWhile_append]
  have hWr : W.reverse.dropWhile isWS = [] := by
    rw [List.dropWhile_eq_nil_iff]
    intro x hx
    exact (allWS_iff W).1 hW x (List.mem_reverse.1 hx)
  rw [hWr]
  simp only [List.isEmpty_nil, if_true]
  cases hAr : A.reverse with
  | nil =>
    have : A = [] := by simpa using congrArg List.reverse hAr
    simp [this]
  | cons z zs =>
    have hz : A.getLast? = some z := by
      rw [List.getLast?_eq_head?_reverse, hAr, List.head?_cons]
    rw [List.dropWhile_cons_of_neg (by simp [hA z hz]), ← hAr, List.reverse_reverse]

theorem trimTrail_eq_self (A : List Char)
    (hA : ∀ x, A.getLast? = some x → isWS x = false) : trimTrail A = A := by
  have := trimTrail_append_ws A [] rfl hA
  simpa using this

theorem trimTrail_append_left (A B : List Char)
    (hA : ∀ x, A.getLast? = some x → isWS x = false) :
    trimTrail (A ++ B) = A ++ trimTrail B := by
  rw [trimTrail, trimTrail, List.reverse_append, List.dropWhile_append]
  by_cases hB : (B.reverse.dropWhile isWS).isEmpty = true
  · rw [if_pos hB]
    rw [List.isEmpty_iff] at hB
    rw [hB, List.reverse_nil, List.append_nil]
    cases hAr : A.reverse with
    | nil =>
      have : A = [] := by simpa using congrArg List.reverse hAr
      simp [this]
    | cons z zs =>
      have hz : A.getLast? = some z := by
        rw [List.getLast?_eq_head?_reverse, hAr, List.head?_cons]
      rw [List.dropWhile_cons_of_neg (by simp [hA z hz]), ← hAr, List.reverse_reverse]
  · rw [if_neg hB, List.reverse_append, List.reverse_reverse]

theorem mem_of_getLast?Some (l : List Char) (x : Char) (h : l.getLast? = some x) :
    x ∈ l := by
  rw [List.getLast?_eq_head?_reverse] at h
  have hm : x ∈ l.reverse := by
    cases hr : l.reverse with
    | nil => rw [hr] at h; cases h
    | cons a t =>
      rw [hr, List.head?_cons, Option.some_inj] at h
      subst h
      exact List.mem_cons_self _ _
  exact List.mem_reverse.1 hm

theorem getLast_all (P : Char → Prop) (d : List Char) (h : ∀ x ∈ d, P x) :
    ∀ x, d.getLast? = some x → P x := by
  intro x hx
  exact h x (mem_of_getLast?Some d x hx)

theorem getLast?_append_right (A B : List Char) (x : Char) (t : List Char)
    (hB : B = x :: t) : (A ++ B).getLast? = B.getLast? := by
  subst hB
  rw [List.getLast?_append_of_ne_nil]
  simp

theorem sepR_sound (l c r : List Char) (h : sepR l = some (c, r)) :
    ∃ w1 mid w2, c = w1 ++ mid ++ w2 ∧ allWS w1 = true ∧ allWS w2 = true ∧
      ((∃ hc, mid = [hc] ∧ isHyphenSep hc = true) ∨ mid = ['t', 'o']) := by
  rw [sepR] at h
  cases hD : l.dropWhile isWS with
  | nil => simp only [hD] at h; cases h
  | cons ch cs =>
    simp only [hD] at h
    by_cases hh : isHyphenSep ch = true
    · rw [if_pos hh] at h
      have h1 := Option.some.inj h
      refine ⟨l.takeWhile isWS, [ch], cs.takeWhile isWS, ?_, allWS_takeWhile l,
        allWS_takeWhile cs, Or.inl ⟨ch, rfl, hh⟩⟩
      exact (congrArg Prod.fst h1).symm
    · rw [if_neg hh] at h
      cases hto : stripPfx ['t', 'o'] (ch :: cs) with
      | none => simp only [hto] at h; cases h
      | some r2 =>
        simp only [hto] at h
        have h1 := Option.some.inj h
        refine ⟨l.takeWhile isWS, ['t', 'o'], r2.takeWhile isWS, ?_, allWS_takeWhile l,
          allWS_takeWhile r2, Or.inr rfl⟩
        exact (congrArg Prod.fst h1).symm

theorem sepE_sound (l c r : List Char) (h : sepE l = some (c, r)) :
    ∃ w1 w2, c = w1 ++ ['e', 'n', 'd'] ++ w2 ∧ allWS w1 = true ∧ allWS w2 = true := by
  rw [sepE] at h
  cases he : stripPfx ['e', 'n', 'd'] (l.dropWhile isWS) with
  | none => simp only [he] at h; cases h
  | some r2 =>
    simp only [he] at h
    have h1 := Option.some.inj h
    refine ⟨l.takeWhile isWS, r2.takeWhile isWS, ?_, allWS_takeWhile l, allWS_takeWhile r2⟩
    exact (congrArg Prod.fst h1).symm

theorem sepLGo_sound : ∀ (toks : List (List Char)) (l c r : List Char),
    sepLGo toks l = some (c, r) →
    ∃ tok ∈ toks, ∃ rr, stripPfx tok l = some rr ∧
      c = tok ++ rr.takeWhile isWS ∧ r = rr.dropWhile isWS := by
  intro toks
  induction toks with
  | nil => intro l c r h; rw [sepLGo] at h; cases h
  | cons t ts ih =>
    intro l c r h
    rw [sepLGo] at h
    cases hsp : stripPfx t l with
    | none =>
      simp only [hsp] at h
      obtain ⟨tok, hm, rr, h1, h3, h4⟩ := ih l c r h
      exact ⟨tok, List.mem_cons_of_mem _ hm, rr, h1, h3, h4⟩
    | some rr =>
      simp only [hsp] at h
      have h1 : (t ++ rr.takeWhile isWS, rr.dropWhile isWS) = (c, r) := Option.some.inj h
      refine ⟨t, List.mem_cons_self _ _, rr, hsp, ?_, ?_⟩
      · exact (congrArg Prod.fst h1).symm
      · exact (congrArg Prod.snd h1).symm

theorem sepL_sound (l c r : List Char) (h : sepL l = some (c, r)) : SepOK c := by
  rw [sepL] at h
  cases hgo : sepLGo sepLToks (l.dropWhile isWS) with
  | none => simp only [hgo] at h; cases h
  | some p =>
    obtain ⟨c0, r0⟩ := p
    simp only [hgo] at h
    have h1 := Option.some.inj h
    have hc : l.takeWhile isWS ++ c0 = c := congrArg Prod.fst h1
    obtain ⟨tok, hm, rr, hsp, hC, hR⟩ := sepLGo_sound sepLToks _ c0 r0 hgo
    refine ⟨l.takeWhile isWS, tok, rr.takeWhile isWS, ?_, allWS_takeWhile l, hm,
      allWS_takeWhile rr⟩
    rw [← hc, hC, List.append_assoc]

theorem sepLGo_run_comma (X : List Char) :
    sepLGo sepLToks (',' :: X) =
      some ([','] ++ X.takeWhile isWS, X.dropWhile isWS) := by
  have h0 : stripPfx [','] (',' :: X) = some X := stripPfx_append [','] X
  simp only [sepLToks, sepLGo, h0]

theorem sepLGo_run_lowquote (X : List Char) :
    sepLGo sepLToks ('‚' :: X) =
      some (['‚'] ++ X.takeWhile isWS, X.dropWhile isWS) := by
  have h1 : stripPfx [','] ('‚' :: X) = none := by rw [stripPfx, if_neg (by decide)]
  have h0 : stripPfx ['‚'] ('‚' :: X) = some X := stripPfx_append ['‚'] X
  simp only [sepLToks, sepLGo, h1, h0]

theorem sepLGo_run_and (X : List Char) :
    sepLGo sepLToks ('a' :: 'n' :: 'd' :: X) =
      some (['a', 'n', 'd'] ++ X.takeWhile isWS, X.dropWhile isWS) := by
  have h1 : stripPfx [','] ('a' :: 'n' :: 'd' :: X) = none := by
    rw [stripPfx, if_neg (by decide)]
  have h2 : stripPfx ['‚'] ('a' :: 'n' :: 'd' :: X) = none := by
    rw [stripPfx, if_neg (by decide)]
  have h0 : stripPfx ['a', 'n', 'd'] ('a' :: 'n' :: 'd' :: X) = some X :=
    stripPfx_append ['a', 'n', 'd'] X
  simp only [sepLToks, sepLGo, h1, h2, h0]

theorem sepL_run (w1 tok w2 rest : List Char) (hw1 : allWS w1 = true)
    (htok : tok ∈ sepLToks) (hw2 : allWS w2 = true)
    (hr : ∀ x, rest.head? = some x → isWS x = false) :
    sepL (w1 ++ tok ++ (w2 ++ rest)) = some (w1 ++ (tok ++ w2), rest) := by
  have htw : (w2 ++ rest).takeWhile isWS = w2 ∧ (w2 ++ rest).dropWhile isWS = rest :=
    takeWhile_of_all isWS w2 rest ((allWS_iff w2).1 hw2) hr
  have hgo : sepLGo sepLToks (tok ++ (w2 ++ rest)) = some (tok ++ w2, rest) := by
    simp only [sepLToks, List.mem_cons, List.not_mem_nil, or_false] at htok
    rcases htok with h|h|h
    all_goals subst h
    · rw [show (([','] ++ (w2 ++ rest)) : List Char) = ',' :: (w2 ++ rest) from rfl,
        sepLGo_run_comma, htw.1, htw.2]
    · rw [show ((['‚'] ++ (w2 ++ rest)) : List Char) = '‚' :: (w2 ++ rest) from rfl,
        sepLGo_run_lowquote, htw.1, htw.2]
    · rw [show ((['a', 'n', 'd'] ++ (w2 ++ rest)) : List Char) =
          'a' :: 'n' :: 'd' :: (w2 ++ rest) from rfl,
        sepLGo_run_and, htw.1, htw.2]
  have hhead : ∀ y, (tok ++ (w2 ++ rest)).head? = some y → isWS y = false := by
    simp only [sepLToks, List.mem_cons, List.not_mem_nil, or_false] at htok
    intro y hy
    rcases htok with h|h|h <;> subst h <;>
      (rw [List.cons_append, List.head?_cons, Option.some_inj] at hy; subst hy; decide)
  obtain ⟨htw1, hdw1⟩ :=
    takeWhile_of_all isWS w1 (tok ++ (w2 ++ rest)) ((allWS_iff w1).1 hw1) hhead
  rw [sepL, List.append_assoc, hdw1, hgo, htw1]

theorem sepL_none_of_head (ch : Char) (t : List Char) (h : sepLFree ch = true) :
    sepLGo sepLToks (ch :: t) = none := by
  rw [sepLFree] at h
  simp only [Bool.not_eq_true', Bool.or_eq_false_iff, beq_eq_false_iff_ne, ne_eq] at h
  have h1 : stripPfx [','] (ch :: t) = none := by rw [stripPfx, if_neg h.1.1]
  have h2 : stripPfx ['‚'] (ch :: t) = none := by rw [stripPfx, if_neg h.1.2]
  have h3 : stripPfx ['a', 'n', 'd'] (ch :: t) = none := by rw [stripPfx, if_neg h.2]
  simp only [sepLToks, sepLGo, h1, h2, h3]

theorem sepL_none_of_clause (Y rest : List Char)
    (hfree : ∀ ch ∈ Y, sepLFree ch = true) (hnw : ∃ z ∈ Y, isWS z = false) :
    sepL (Y ++ rest) = none := by
  obtain ⟨z, hz, hzw⟩ := hnw
  have hD : Y.dropWhile isWS ≠ [] := by
    intro hc
    rw [List.dropWhile_eq_nil_iff] at hc
    rw [hc z hz] at hzw
    cases hzw
  cases hDc : Y.dropWhile isWS with
  | nil => exact absurd hDc hD
  | cons ch t =>
    have hch : ch ∈ Y := by
      have hmem : ch ∈ Y.dropWhile isWS := by rw [hDc]; exact List.mem_cons_self _ _
      exact (List.dropWhile_sublist isWS).subset hmem
    have hdw : (Y ++ rest).dropWhile isWS = ch :: (t ++ rest) := by
      rw [List.dropWhile_append, hDc]
      simp
    rw [sepL, hdw, sepL_none_of_head ch _ (hfree ch hch)]

theorem sepL_none_of_ws (Y : List Char) (h : allWS Y = true) : sepL Y = none := by
  have hD : Y.dropWhile isWS = [] := by
    rw [List.dropWhile_eq_nil_iff]
    intro x hx
    exact (allWS_iff Y).1 h x hx
  rw [sepL, hD]
  rfl

theorem sepV_sepLFree (l c r : List Char) (h : sepV l = some (c, r)) :
    ∀ ch ∈ c, sepLFree ch = true := by
  obtain ⟨w1, tok, w2, hc, hw1, hm, hw2, _, _⟩ := sepV_sound l c r h
  subst hc
  exact sepLFree_app w1 (tok ++ w2) (sepLFree_of_allWS w1 hw1)
    (sepLFree_app tok w2 (sepVTok_sepLFree tok hm) (sepLFree_of_allWS w2 hw2))

theorem sepR_sepLFree (l c r : List Char) (h : sepR l = some (c, r)) :
    ∀ ch ∈ c, sepLFree ch = true := by
  obtain ⟨w1, mid, w2, hc, hw1, hw2, hmid⟩ := sepR_sound l c r h
  subst hc
  refine sepLFree_app (w1 ++ mid) w2 (sepLFree_app w1 mid (sepLFree_of_allWS w1 hw1) ?_)
    (sepLFree_of_allWS w2 hw2)
  rcases hmid with ⟨hc, hm, hh⟩ | hm <;> subst hm
  · intro ch hch
    rw [List.mem_singleton] at hch
    subst hch
    exact isHyphenSep_sepLFree _ hh
  · decide

theorem sepE_sepLFree (l c r : List Char) (h : sepE l = some (c, r)) :
    ∀ ch ∈ c, sepLFree ch = true := by
  obtain ⟨w1, w2, hc, hw1, hw2⟩ := sepE_sound l c r h
  subst hc
  exact sepLFree_app (w1 ++ ['e', 'n', 'd']) w2
    (sepLFree_app w1 ['e', 'n', 'd'] (sepLFree_of_allWS w1 hw1) (by decide))
    (sepLFree_of_allWS w2 hw2)

theorem matchRange_ne_none_of_mem (l : List Char) (e : RangeM × List Char × List Char)
    (hm : e ∈ clauseCands (l.dropWhile isWS)) (hws : allWS e.2.2 = true) :
    matchRange l ≠ none := by
  rw [matchRange]
  intro hc
  rw [Option.map_eq_none'] at hc
  rw [List.head?_eq_none_iff] at hc
  have hmem : e ∈ (clauseCands (l.dropWhile isWS)).filter (fun c => allWS c.2.2) :=
    List.mem_filter.2 ⟨hm, by simpa using hws⟩
  rw [hc] at hmem
  cases hmem

theorem tc_mem_T5 (fc : Option Nat) (fv : Nat) (c0 r0 : List Char) :
    ((⟨fc, fv, false, none, none⟩ : RangeM), c0, r0) ∈ tailCands fc fv c0 r0 := by
  rw [tailCands]
  exact List.mem_append_right _ (List.mem_singleton.2 rfl)

theorem tc_mem_T4 (fc : Option Nat) (fv : Nat) (c0 r0 cR r1 : List Char)
    (h : sepR r0 = some (cR, r1)) :
    ((⟨fc, fv, true, none, none⟩ : RangeM), c0 ++ cR, r1) ∈ tailCands fc fv c0 r0 := by
  rw [tailCands]
  refine List.mem_append_left _ ?_
  simp only [h]
  exact List.mem_append_right _ (List.mem_singleton.2 rfl)

theorem tc_mem_T3 (fc : Option Nat) (fv : Nat) (c0 r0 cR r1 cE r2 : List Char)
    (h : sepR r0 = some (cR, r1)) (hE : sepE r1 = some (cE, r2)) :
    ((⟨fc, fv, true, none, none⟩ : RangeM), c0 ++ cR ++ cE, r2) ∈
      tailCands fc fv c0 r0 := by
  rw [tailCands]
  refine List.mem_append_left _ ?_
  simp only [h, hE]
  exact List.mem_append_left _ (List.mem_append_right _ (List.mem_singleton.2 rfl))

theorem tc_mem_T2 (fc : Option Nat) (fv : Nat) (c0 r0 cR r1 dt r2 : List Char)
    (h : sepR r0 = some (cR, r1)) (hD : digits1 r1 = some (dt, r2)) :
    ((⟨fc, fv, true, none, some (natOfDigits dt)⟩ : RangeM), c0 ++ cR ++ dt, r2) ∈
      tailCands fc fv c0 r0 := by
  rw [tailCands]
  refine List.mem_append_left _ ?_
  simp only [h, hD]
  exact List.mem_append_left _ (List.mem_append_left _
    (List.mem_append_right _ (List.mem_singleton.2 rfl)))

theorem tc_mem_T1 (fc : Option Nat) (fv : Nat) (c0 r0 cR r1 dt r2 cV r3 dv r4 : List Char)
    (h : sepR r0 = some (cR, r1)) (hD : digits1 r1 = some (dt, r2))
    (hV : sepV r2 = some (cV, r3)) (hD2 : digits1 r3 = some (dv, r4)) :
    ((⟨fc, fv, true, some (natOfDigits dt), some (natOfDigits dv)⟩ : RangeM),
      c0 ++ cR ++ dt ++ cV ++ dv, r4) ∈ tailCands fc fv c0 r0 := by
  rw [tailCands]
  refine List.mem_append_left _ ?_
  simp only [h, hD, hV, hD2]
  exact List.mem_append_left _ (List.mem_append_left _
    (List.mem_append_left _ (List.mem_singleton.2 rfl)))

theorem cc_mem_B (l d1 r1 : List Char) (e : RangeM × List Char × List Char)
    (h : digits1 l = some (d1, r1))
    (he : e ∈ tailCands none (natOfDigits d1) d1 r1) : e ∈ clauseCands l := by
  rw [clauseCands]
  simp only [h]
  exact List.mem_append_right _ he

theorem cc_mem_A (l d1 r1 cV r2 d2 r3 : List Char) (e : RangeM × List Char × List Char)
    (h1 : digits1 l = some (d1, r1)) (h2 : sepV r1 = some (cV, r2))
    (h3 : digits1 r2 = some (d2, r3))
    (he : e ∈ tailCands (some (natOfDigits d1)) (natOfDigits d2) (d1 ++ cV ++ d2) r3) :
    e ∈ clauseCands l := by
  rw [clauseCands]
  simp only [h1, h2, h3]
  exact List.mem_append_left _ he

theorem tailCands_inv (fc : Option Nat) (fv : Nat) (c0 r0 : List Char)
    (e : RangeM × List Char × List Char) (he : e ∈ tailCands fc fv c0 r0) :
    e = ((⟨fc, fv, false, none, none⟩ : RangeM), c0, r0) ∨
    ∃ cR r1, sepR r0 = some (cR, r1) ∧
      (e = ((⟨fc, fv, true, none, none⟩ : RangeM), c0 ++ cR, r1) ∨
       (∃ cE r2, sepE r1 = some (cE, r2) ∧
         e = ((⟨fc, fv, true, none, none⟩ : RangeM), c0 ++ cR ++ cE, r2)) ∨
       (∃ dt r2, digits1 r1 = some (dt, r2) ∧
         (e = ((⟨fc, fv, true, none, some (natOfDigits dt)⟩ : RangeM),
                c0 ++ cR ++ dt, r2) ∨
          ∃ cV r3 dv r4, sepV r2 = some (cV, r3) ∧ digits1 r3 = some (dv, r4) ∧
            e = ((⟨fc, fv, true, some (natOfDigits dt), some (natOfDigits dv)⟩ : RangeM),
                 c0 ++ cR ++ dt ++ cV ++ dv, r4)))) := by
  rw [tailCands] at he
  rcases List.mem_append.1 he with he | he
  · cases hR : sepR r0 with
    | none => simp only [hR] at he; cases he
    | some p =>
      obtain ⟨cR, r1⟩ := p
      simp only [hR] at he
      refine Or.inr ⟨cR, r1, rfl, ?_⟩
      rcases List.mem_append.1 he with he | he
      · rcases List.mem_append.1 he with he | he
        · cases hD : digits1 r1 with
          | none => simp only [hD] at he; cases he
          | some q =>
            obtain ⟨dt, r2⟩ := q
            simp only [hD] at he
            refine Or.inr (Or.inr ⟨dt, r2, rfl, ?_⟩)
            rcases List.mem_append.1 he with he | he
            · cases hV : sepV r2 with
              | none => simp only [hV] at he; cases he
              | some q2 =>
                obtain ⟨cV, r3⟩ := q2
                simp only [hV] at he
                cases hD2 : digits1 r3 with
                | none => simp only [hD2] at he; cases he
                | some q3 =>
                  obtain ⟨dv, r4⟩ := q3
                  simp only [hD2] at he
                  exact Or.inr ⟨cV, r3, dv, r4, rfl, hD2, List.mem_singleton.1 he⟩
            · exact Or.inl (List.mem_singleton.1 he)
        · cases hE : sepE r1 with
          | none => simp only [hE] at he; cases he
          | some q =>
            obtain ⟨cE, r2⟩ := q
            simp only [hE] at he
            exact Or.inr (Or.inl ⟨cE, r2, rfl, List.mem_singleton.1 he⟩)
      · exact Or.inl (List.mem_singleton.1 he)
  · exact Or.inl (List.mem_singleton.1 he)

theorem clauseCands_inv (l : List Char) (e : RangeM × List Char × List Char)
    (he : e ∈ clauseCands l) :
    ∃ d1 r1, digits1 l = some (d1, r1) ∧
      (e ∈ tailCands none (natOfDigits d1) d1 r1 ∨
       ∃ cV r2 d2 r3, sepV r1 = some (cV, r2) ∧ digits1 r2 = some (d2, r3) ∧
         e ∈ tailCands (some (natOfDigits d1)) (natOfDigits d2) (d1 ++ cV ++ d2) r3) := by
  rw [clauseCands] at he
  cases h1 : digits1 l with
  | none => simp only [h1] at he; cases he
  | some p =>
    obtain ⟨d1, r1⟩ := p
    simp only [h1] at he
    refine ⟨d1, r1, rfl, ?_⟩
    rcases List.mem_append.1 he with he | he
    · cases h2 : sepV r1 with
      | none => simp only [h2] at he; cases he
      | some q =>
        obtain ⟨cV, r2⟩ := q
        simp only [h2] at he
        cases h3 : digits1 r2 with
        | none => simp only [h3] at he; cases he
        | some q2 =>
          obtain ⟨d2, r3⟩ := q2
          simp only [h3] at he
          exact Or.inr ⟨cV, r2, d2, r3, rfl, h3, he⟩
    · exact Or.inl he

theorem ws_takeWhile_self (w : List Char) (h : allWS w = true) :
    w.takeWhile isWS = w := by
  have hh := (takeWhile_of_all isWS w [] ((allWS_iff w).1 h)
    (by intro x hx; cases hx)).1
  rwa [List.append_nil] at hh

theorem ws_dropWhile_nil (w : List Char) (h : allWS w = true) :
    w.dropWhile isWS = [] := by
  have hh := (takeWhile_of_all isWS w [] ((allWS_iff w).1 h)
    (by intro x hx; cases hx)).2
  rwa [List.append_nil] at hh

theorem headNonDig_ofWS (w : List Char) (h : allWS w = true) :
    ∀ x, w.head? = some x → isDig x = false := by
  intro x hx
  cases w with
  | nil => cases hx
  | cons a t =>
    rw [List.head?_cons, Option.some_inj] at hx
    subst hx
    exact ws_not_dig _ ((allWS_iff _).1 h _ (List.mem_cons_self _ _))

theorem head_nonws_digits (d R : List Char) (hne : d ≠ [])
    (hall : ∀ x ∈ d, isDig x = true) :
    ∀ x, (d ++ R).head? = some x → isWS x = false := by
  cases d with
  | nil => exact absurd rfl hne
  | cons a t =>
    intro x hx
    rw [List.cons_append, List.head?_cons, Option.some_inj] at hx
    subst hx
    exact isDig_not_ws _ (hall _ (List.mem_cons_self _ _))

theorem drop_ws_before (W R : List Char) (hW : allWS W = true)
    (hR : ∀ x, R.head? = some x → isWS x = false) :
    (W ++ R).dropWhile isWS = R :=
  (takeWhile_of_all isWS W R ((allWS_iff W).1 hW) hR).2

theorem dropWhile_ws_id (l : List Char) (x : Char) (t : List Char) (hl : l = x :: t)
    (hx : isWS x = false) : l.dropWhile isWS = l := by
  subst hl
  rw [List.dropWhile_cons_of_neg (by simp [hx])]

theorem sepLFree_of_digits (d : List Char) (h : ∀ x ∈ d, isDig x = true) :
    ∀ ch ∈ d, sepLFree ch = true :=
  fun ch hm => sepLFree_of_dig ch (h ch hm)

theorem getLast_nonws_append_digits (A d : List Char) (hne : d ≠ [])
    (hall : ∀ x ∈ d, isDig x = true) :
    ∀ x, (A ++ d).getLast? = some x → isWS x = false := by
  intro x hx
  cases hd : d with
  | nil => exact absurd hd hne
  | cons a t =>
    rw [getLast?_append_right A d a t hd] at hx
    exact isDig_not_ws x (hall x (mem_of_getLast?Some d x hx))

theorem midHead (mid : List Char)
    (hmid : (∃ hc, mid = [hc] ∧ isHyphenSep hc = true) ∨ mid = ['t', 'o']) :
    ∃ xm tm, mid = xm :: tm ∧ isDig xm = false ∧ isWS xm = false := by
  rcases hmid with ⟨hc, hm, hh⟩ | hm <;> subst hm
  · exact ⟨hc, [], rfl, isHyphenSep_not_dig hc hh, isHyphenSep_not_ws hc hh⟩
  · exact ⟨'t', ['o'], rfl, by decide, by decide⟩

theorem midLast (mid : List Char)
    (hmid : (∃ hc, mid = [hc] ∧ isHyphenSep hc = true) ∨ mid = ['t', 'o']) :
    ∀ x, mid.getLast? = some x → isWS x = false := by
  rcases hmid with ⟨hc, hm, hh⟩ | hm <;> subst hm
  · intro x hx
    have hh2 : ([hc] : List Char).getLast? = some hc := rfl
    rw [hh2, Option.some_inj] at hx
    subst hx
    exact isHyphenSep_not_ws hc hh
  · intro x hx
    have hh2 : (['t', 'o'] : List Char).getLast? = some 'o' := rfl
    rw [hh2, Option.some_inj] at hx
    subst hx
    decide

theorem sepR_replay (wr1 mid wr2 R : List Char) (h1 : allWS wr1 = true)
    (h2 : allWS wr2 = true)
    (hmid : (∃ hc, mid = [hc] ∧ isHyphenSep hc = true) ∨ mid = ['t', 'o']) :
    sepR (wr1 ++ (mid ++ (wr2 ++ R))) =
      some (wr1 ++ mid ++ (wr2 ++ R).takeWhile isWS, (wr2 ++ R).dropWhile isWS) := by
  rcases hmid with ⟨hc, hm, hh⟩ | hm <;> subst hm
  · rw [show (wr1 ++ ([hc] ++ (wr2 ++ R)) : List Char) = wr1 ++ hc :: (wr2 ++ R) from rfl,
      sepR_run_hyphen wr1 (wr2 ++ R) hc h1 hh]
  · rw [show (wr1 ++ (['t', 'o'] ++ (wr2 ++ R)) : List Char) =
        wr1 ++ 't' :: 'o' :: (wr2 ++ R) from rfl,
      sepR_run_to wr1 (wr2 ++ R) h1]

theorem tail_ok (fc : Option Nat) (fv : Nat) (c0 r0 : List Char)
    (e : RangeM × List Char × List Char)
    (H1 : e ∈ tailCands fc fv c0 r0)
    (Hlast : ∀ x, c0.getLast? = some x → isDig x = true)
    (H5 : ∀ X e', (∀ x, X.head? = some x → isDig x = false) →
        e' ∈ tailCands fc fv c0 X → e' ∈ clauseCands (c0 ++ X))
    (H6 : ∀ ch ∈ c0, sepLFree ch = true)
    (H7 : ∃ x t, c0 = x :: t ∧ isDig x = true) :
    ClauseOK e.2.1 := by
  obtain ⟨x0, t0, hc0, hx0⟩ := H7
  have hx0w : isWS x0 = false := isDig_not_ws x0 hx0
  have hlastNW : ∀ x, c0.getLast? = some x → isWS x = false :=
    fun x hx => isDig_not_ws x (Hlast x hx)
  have hdw0 : ∀ (X : List Char), (c0 ++ X).dropWhile isWS = c0 ++ X := by
    intro X
    exact dropWhile_ws_id _ x0 (t0 ++ X) (by rw [hc0, List.cons_append]) hx0w
  rcases tailCands_inv fc fv c0 r0 e H1 with h | ⟨cR, r1, hR, hshape⟩
  · subst h
    show ClauseOK c0
    simp only [ClauseOK]
    refine ⟨⟨x0, t0, hc0, hx0⟩, H6, ?_⟩
    intro w hw
    rw [trimTrail_eq_self c0 hlastNW]
    have hmem := H5 w _ (headNonDig_ofWS w hw) (tc_mem_T5 fc fv c0 w)
    exact matchRange_ne_none_of_mem _ _ ((hdw0 w).symm ▸ hmem) hw
  obtain ⟨wr1, mid, wr2, hcR, hwr1, hwr2, hmid⟩ := sepR_sound r0 cR r1 hR
  obtain ⟨xm, tm, hmideq, hxmD, hxmW⟩ := midHead mid hmid
  have hmidlast := midLast mid hmid
  have hfreeR : ∀ ch ∈ cR, sepLFree ch = true := sepR_sepLFree r0 cR r1 hR
  rcases hshape with h | ⟨cE, r2, hE, h⟩ | ⟨dt, r2, hD, h | ⟨cV, r3, dv, r4, hV, hD2, h⟩⟩
  · -- range with a bare separator (`sep_r` and nothing after)
    subst h
    show ClauseOK (c0 ++ cR)
    simp only [ClauseOK]
    refine ⟨⟨x0, t0 ++ cR, by simp [hc0], hx0⟩, sepLFree_app c0 cR H6 hfreeR, ?_⟩
    intro w hw
    have htr : trimTrail (c0 ++ cR) = c0 ++ (wr1 ++ mid) := by
      conv_lhs => rw [hcR, ← List.append_assoc]
      refine trimTrail_append_ws _ wr2 hwr2 ?_
      intro x hx
      rw [← List.append_assoc, getLast?_append_right (c0 ++ wr1) mid xm tm hmideq] at hx
      exact hmidlast x hx
    rw [htr, List.append_assoc]
    have h' := sepR_replay wr1 mid [] w hwr1 rfl hmid
    simp only [List.nil_append] at h'
    rw [← List.append_assoc wr1 mid w, ws_takeWhile_self w hw, ws_dropWhile_nil w hw] at h'
    have hX : ∀ x, ((wr1 ++ mid) ++ w).head? = some x → isDig x = false := by
      intro x hx
      rw [List.append_assoc] at hx
      exact head_not_dig_pre wr1 mid w xm tm hwr1 hmideq hxmD x hx
    have hmem := H5 ((wr1 ++ mid) ++ w) _ hX
      (tc_mem_T4 fc fv c0 ((wr1 ++ mid) ++ w) (wr1 ++ mid ++ w) [] h')
    refine matchRange_ne_none_of_mem _ _ ((hdw0 _).symm ▸ hmem) ?_
    rfl
  · -- range ending in the `end` keyword
    obtain ⟨we1, we2, hcE, hwe1, hwe2⟩ := sepE_sound r1 cE r2 hE
    subst h
    show ClauseOK (c0 ++ cR ++ cE)
    simp only [ClauseOK]
    refine ⟨⟨x0, t0 ++ (cR ++ cE), by simp [hc0], hx0⟩,
      sepLFree_app (c0 ++ cR) cE (sepLFree_app c0 cR H6 hfreeR)
        (sepE_sepLFree r1 cE r2 hE), ?_⟩
    intro w hw
    have htr : trimTrail (c0 ++ cR ++ cE) = (c0 ++ cR) ++ (we1 ++ ['e', 'n', 'd']) := by
      conv_lhs => rw [hcE, ← List.append_assoc]
      refine trimTrail_append_ws _ we2 hwe2 ?_
      intro x hx
      rw [← List.append_assoc,
        getLast?_append_right ((c0 ++ cR) ++ we1) ['e', 'n', 'd'] 'e' ['n', 'd'] rfl] at hx
      have hh2 : (['e', 'n', 'd'] : List Char).getLast? = some 'd' := rfl
      rw [hh2, Option.some_inj] at hx
      subst hx
      decide
    rw [htr]
    simp only [List.append_assoc]
    have hXeq : cR ++ (we1 ++ (['e', 'n', 'd'] ++ w)) =
        wr1 ++ (mid ++ (wr2 ++ (we1 ++ (['e', 'n', 'd'] ++ w)))) := by
      rw [hcR]
      simp only [List.append_assoc]
    have h' := sepR_replay wr1 mid wr2 (we1 ++ (['e', 'n', 'd'] ++ w)) hwr1 hwr2 hmid
    rw [← hXeq] at h'
    have hdropE : (wr2 ++ (we1 ++ (['e', 'n', 'd'] ++ w))).dropWhile isWS =
        ['e', 'n', 'd'] ++ w := by
      rw [← List.append_assoc]
      refine drop_ws_before (wr2 ++ we1) _ ?_ ?_
      · rw [allWS_append, hwr2, hwe1]
        rfl
      · intro x hx
        rw [show ((['e', 'n', 'd'] ++ w : List Char)) = 'e' :: (['n', 'd'] ++ w) from rfl,
          List.head?_cons, Option.some_inj] at hx
        subst hx
        decide
    rw [hdropE] at h'
    have hsepE : sepE (['e', 'n', 'd'] ++ w) =
        some (['e', 'n', 'd'] ++ w.takeWhile isWS, []) := by
      have h'' := sepE_run [] w rfl
      simp only [List.nil_append] at h''
      rw [show ((['e', 'n', 'd'] ++ w : List Char)) = 'e' :: 'n' :: 'd' :: w from rfl, h'',
        ws_dropWhile_nil w hw]
    have hX : ∀ x, (cR ++ (we1 ++ (['e', 'n', 'd'] ++ w))).head? = some x →
        isDig x = false := by
      intro x hx
      rw [hXeq] at hx
      exact head_not_dig_pre wr1 mid _ xm tm hwr1 hmideq hxmD x hx
    have hmem := H5 (cR ++ (we1 ++ (['e', 'n', 'd'] ++ w))) _ hX
      (tc_mem_T3 fc fv c0 _ _ _ _ _ h' hsepE)
    refine matchRange_ne_none_of_mem _ _ ((hdw0 _).symm ▸ hmem) ?_
    rfl
  · -- range with a bare to-verse
    obtain ⟨hr1eq, hdtne, hdtall, hr2head⟩ := digits1_sound r1 dt r2 hD
    subst h
    show ClauseOK (c0 ++ cR ++ dt)
    simp only [ClauseOK]
    refine ⟨⟨x0, t0 ++ (cR ++ dt), by simp [hc0], hx0⟩,
      sepLFree_app (c0 ++ cR) dt (sepLFree_app c0 cR H6 hfreeR)
        (sepLFree_of_digits dt hdtall), ?_⟩
    intro w hw
    rw [trimTrail_eq_self _ (getLast_nonws_append_digits (c0 ++ cR) dt hdtne hdtall)]
    simp only [List.append_assoc]
    have hXeq : cR ++ (dt ++ w) = wr1 ++ (mid ++ (wr2 ++ (dt ++ w))) := by
      rw [hcR]
      simp only [List.append_assoc]
    have h' := sepR_replay wr1 mid wr2 (dt ++ w) hwr1 hwr2 hmid
    rw [← hXeq, drop_ws_before wr2 (dt ++ w) hwr2 (head_nonws_digits dt w hdtne hdtall)]
      at h'
    have h2' : digits1 (dt ++ w) = some (dt, w) :=
      digits1_run dt w hdtne hdtall (headNonDig_ofWS w hw)
    have hX : ∀ x, (cR ++ (dt ++ w)).head? = some x → isDig x = false := by
      intro x hx
      rw [hXeq] at hx
      exact head_not_dig_pre wr1 mid _ xm tm hwr1 hmideq hxmD x hx
    have hmem := H5 (cR ++ (dt ++ w)) _ hX
      (tc_mem_T2 fc fv c0 _ _ _ _ _ h' h2')
    exact matchRange_ne_none_of_mem _ _ ((hdw0 _).symm ▸ hmem) hw
  · -- full range with to-chapter and to-verse
    obtain ⟨hr1eq, hdtne, hdtall, hr2head⟩ := digits1_sound r1 dt r2 hD
    obtain ⟨hr3eq, hdvne, hdvall, hr4head⟩ := digits1_sound r3 dv r4 hD2
    obtain ⟨wv1, tokV, wv2, hcV, hwv1, htokmem, hwv2, hlV, hrVhead⟩ :=
      sepV_sound r2 cV r3 hV
    obtain ⟨xv, tv, htokveq, hxvD, hxvW⟩ := sepVTok_head tokV htokmem
    obtain ⟨xd2, td2, hdveq⟩ : ∃ a b, dv = a :: b := by
      cases dv with
      | nil => exact absurd rfl hdvne
      | cons a b => exact ⟨a, b, rfl⟩
    subst h
    show ClauseOK (c0 ++ cR ++ dt ++ cV ++ dv)
    simp only [ClauseOK]
    refine ⟨⟨x0, t0 ++ (cR ++ (dt ++ (cV ++ dv))), by simp [hc0], hx0⟩,
      sepLFree_app (c0 ++ cR ++ dt ++ cV) dv
        (sepLFree_app (c0 ++ cR ++ dt) cV
          (sepLFree_app (c0 ++ cR) dt (sepLFree_app c0 cR H6 hfreeR)
            (sepLFree_of_digits dt hdtall))
          (sepV_sepLFree r2 cV r3 hV))
        (sepLFree_of_digits dv hdvall), ?_⟩
    intro w hw
    rw [trimTrail_eq_self _
      (getLast_nonws_append_digits (c0 ++ cR ++ dt ++ cV) dv hdvne hdvall)]
    simp only [List.append_assoc]
    have hcVhead : ∀ x, (cV ++ (dv ++ w)).head? = some x → isDig x = false := by
      intro x hx
      rw [hcV] at hx
      simp only [List.append_assoc] at hx
      exact head_not_dig_pre wv1 tokV _ xv tv hwv1 htokveq hxvD x hx
    have hXeq : cR ++ (dt ++ (cV ++ (dv ++ w))) =
        wr1 ++ (mid ++ (wr2 ++ (dt ++ (cV ++ (dv ++ w))))) := by
      rw [hcR]
      simp only [List.append_assoc]
    have h' := sepR_replay wr1 mid wr2 (dt ++ (cV ++ (dv ++ w))) hwr1 hwr2 hmid
    rw [← hXeq, drop_ws_before wr2 _ hwr2 (head_nonws_digits dt _ hdtne hdtall)] at h'
    have h2' : digits1 (dt ++ (cV ++ (dv ++ w))) = some (dt, cV ++ (dv ++ w)) :=
      digits1_run dt _ hdtne hdtall hcVhead
    have h3' : sepV (cV ++ (dv ++ w)) = some (cV, dv ++ w) := by
      have hxd2 : isDig xd2 = true :=
        hdvall xd2 (by rw [hdveq]; exact List.mem_cons_self _ _)
      have h'' := sepV_run wv1 tokV wv2 (dv ++ w) hwv1 htokmem hwv2
        ⟨xd2, td2 ++ w, by rw [hdveq]; rfl, hxd2⟩
      rw [← hcV] at h''
      have hIeq : cV ++ (dv ++ w) = wv1 ++ tokV ++ (wv2 ++ (dv ++ w)) := by
        rw [hcV]
        simp only [List.append_assoc]
      rw [hIeq]
      exact h''
    have h4' : digits1 (dv ++ w) = some (dv, w) :=
      digits1_run dv w hdvne hdvall (headNonDig_ofWS w hw)
    have hX : ∀ x, (cR ++ (dt ++ (cV ++ (dv ++ w)))).head? = some x →
        isDig x = false := by
      intro x hx
      rw [hXeq] at hx
      exact head_not_dig_pre wr1 mid _ xm tm hwr1 hmideq hxmD x hx
    have hmem := H5 (cR ++ (dt ++ (cV ++ (dv ++ w)))) _ hX
      (tc_mem_T1 fc fv c0 _ _ _ _ _ _ _ _ _ h' h2' h3' h4')
    exact matchRange_ne_none_of_mem _ _ ((hdw0 _).symm ▸ hmem) hw

theorem clauseCands_ok (l : List Char) (e : RangeM × List Char × List Char)
    (he : e ∈ clauseCands l) : ClauseOK e.2.1 := by
  obtain ⟨d1, r1, h1, hbr⟩ := clauseCands_inv l e he
  obtain ⟨hleq, hd1ne, hd1all, hr1head⟩ := digits1_sound l d1 r1 h1
  obtain ⟨x1, t1, hd1eq⟩ : ∃ a b, d1 = a :: b := by
    cases d1 with
    | nil => exact absurd rfl hd1ne
    | cons a b => exact ⟨a, b, rfl⟩
  have hx1 : isDig x1 = true := hd1all x1 (by rw [hd1eq]; exact List.mem_cons_self _ _)
  rcases hbr with hbr | ⟨cV, r2, d2, r3, h2, h3, hbr⟩
  · refine tail_ok none (natOfDigits d1) d1 r1 e hbr (getLast_all _ d1 hd1all) ?_
      (sepLFree_of_digits d1 hd1all) ⟨x1, t1, hd1eq, hx1⟩
    intro X e' hX he'
    exact cc_mem_B (d1 ++ X) d1 X e' (digits1_run d1 X hd1ne hd1all hX) he'
  · obtain ⟨hr1eqV, hd2ne, hd2all, hr3head⟩ := digits1_sound r2 d2 r3 h3
    obtain ⟨wv1, tokV, wv2, hcV, hwv1, htokmem, hwv2, hlV, hrVhead⟩ :=
      sepV_sound r1 cV r2 h2
    obtain ⟨xv, tv, htokveq, hxvD, hxvW⟩ := sepVTok_head tokV htokmem
    obtain ⟨xd2, td2, hd2eq⟩ : ∃ a b, d2 = a :: b := by
      cases d2 with
      | nil => exact absurd rfl hd2ne
      | cons a b => exact ⟨a, b, rfl⟩
    have hxd2 : isDig xd2 = true :=
      hd2all xd2 (by rw [hd2eq]; exact List.mem_cons_self _ _)
    refine tail_ok (some (natOfDigits d1)) (natOfDigits d2) (d1 ++ cV ++ d2) r3 e hbr
      ?_ ?_ ?_ ⟨x1, t1 ++ (cV ++ d2), by simp [hd1eq], hx1⟩
    · intro x hx
      rw [getLast?_append_right (d1 ++ cV) d2 xd2 td2 hd2eq] at hx
      exact hd2all x (mem_of_getLast?Some d2 x hx)
    · intro X e' hX he'
      have hcVhead : ∀ x, (cV ++ (d2 ++ X)).head? = some x → isDig x = false := by
        intro x hx
        rw [hcV] at hx
        simp only [List.append_assoc] at hx
        exact head_not_dig_pre wv1 tokV _ xv tv hwv1 htokveq hxvD x hx
      have hA1 : digits1 ((d1 ++ cV ++ d2) ++ X) = some (d1, cV ++ (d2 ++ X)) := by
        have hh := digits1_run d1 (cV ++ (d2 ++ X)) hd1ne hd1all hcVhead
        have heq : (d1 ++ cV ++ d2) ++ X = d1 ++ (cV ++ (d2 ++ X)) := by
          simp only [List.append_assoc]
        rw [heq, hh]
      have hA2 : sepV (cV ++ (d2 ++ X)) = some (cV, d2 ++ X) := by
        have h'' := sepV_run wv1 tokV wv2 (d2 ++ X) hwv1 htokmem hwv2
          ⟨xd2, td2 ++ X, by rw [hd2eq]; rfl, hxd2⟩
        rw [← hcV] at h''
        have hIeq : cV ++ (d2 ++ X) = wv1 ++ tokV ++ (wv2 ++ (d2 ++ X)) := by
          rw [hcV]
          simp only [List.append_assoc]
        rw [hIeq]
        exact h''
      have hA3 : digits1 (d2 ++ X) = some (d2, X) := digits1_run d2 X hd2ne hd2all hX
      exact cc_mem_A ((d1 ++ cV ++ d2) ++ X) d1 (cV ++ (d2 ++ X)) cV (d2 ++ X) d2 X e'
        hA1 hA2 hA3 he'
    · exact sepLFree_app (d1 ++ cV) d2
        (sepLFree_app d1 cV (sepLFree_of_digits d1 hd1all) (sepV_sepLFree r1 cV r2 h2))
        (sepLFree_of_digits d2 hd2all)

theorem PiecesOK_ne_nil (ps : List (List Char × List Char)) (h : PiecesOK ps) :
    ps ≠ [] := by
  cases ps with
  | nil => cases h
  | cons p rest => simp

theorem PiecesOK_cons (c s : List Char) (rest : List (List Char × List Char))
    (hc : ClauseOK c) (hs : SepOK s) (hr : PiecesOK rest) (hne : rest ≠ []) :
    PiecesOK ((c, s) :: rest) := by
  cases rest with
  | nil => exact absurd rfl hne
  | cons p rs => exact ⟨hc, hs, hr⟩

theorem rangesGo_sound : ∀ (fuel : Nat) (cands : List (RangeM × List Char × List Char)),
    (∀ e ∈ cands, ClauseOK e.2.1) → ∀ ps rf, rangesGo fuel cands = some (ps, rf) →
    PiecesOK ps ∧ allWS rf = true := by
  intro fuel
  induction fuel with
  | zero =>
    intro cands _ ps rf h
    rw [rangesGo] at h
    cases h
  | succ n ih =>
    intro cands hOK ps rf h
    cases cands with
    | nil => rw [rangesGo] at h; cases h
    | cons p rest =>
      obtain ⟨m, c, r⟩ := p
      rw [rangesGo] at h
      by_cases hws : allWS r = true
      · rw [if_pos hws] at h
        have h1 := Option.some.inj h
        have hps : [(c, [])] = ps := congrArg Prod.fst h1
        have hrf : r = rf := congrArg Prod.snd h1
        constructor
        · rw [← hps]
          exact ⟨hOK (m, c, r) (List.mem_cons_self _ _), rfl⟩
        · rw [← hrf]
          exact hws
      · rw [if_neg hws] at h
        cases hL : sepL r with
        | none =>
          simp only [hL] at h
          exact ih rest (fun e he => hOK e (List.mem_cons_of_mem _ he)) ps rf h
        | some q =>
          obtain ⟨cL, r2⟩ := q
          simp only [hL] at h
          by_cases hws2 : allWS r2 = true
          · rw [if_pos hws2] at h
            exact ih rest (fun e he => hOK e (List.mem_cons_of_mem _ he)) ps rf h
          · rw [if_neg hws2] at h
            cases hrec : rangesGo n (clauseCands r2) with
            | none =>
              simp only [hrec] at h
              exact ih rest (fun e he => hOK e (List.mem_cons_of_mem _ he)) ps rf h
            | some q2 =>
              obtain ⟨ps2, rf2⟩ := q2
              simp only [hrec] at h
              have h1 := Option.some.inj h
              obtain ⟨hP, hW⟩ :=
                ih (clauseCands r2) (fun e he => clauseCands_ok r2 e he) ps2 rf2 hrec
              have hps : (c, cL) :: ps2 = ps := congrArg Prod.fst h1
              have hrf : rf2 = rf := congrArg Prod.snd h1
              constructor
              · rw [← hps]
                exact PiecesOK_cons c cL ps2 (hOK (m, c, r) (List.mem_cons_self _ _))
                  (sepL_sound r cL r2 hL) hP (PiecesOK_ne_nil ps2 hP)
              · rw [← hrf]
                exact hW

theorem rangesP_sound (l : List Char) (ps : List (List Char × List Char))
    (rf : List Char) (h : rangesP l = some (ps, rf)) : PiecesOK ps := by
  rw [rangesP] at h
  exact (rangesGo_sound _ _ (fun e he => clauseCands_ok l e he) ps rf h).1

theorem bookTry_sound (bd bdot bt l4 : List Char) :
    ∀ (k : Nat) (bk : List Char) (ps : List (List Char × List Char)),
      bookTry bd bdot bt l4 k = some (bk, ps) →
      ∃ l2 rf, rangesP l2 = some (ps, rf) := by
  intro k
  induction k with
  | zero =>
    intro bk ps h
    rw [bookTry] at h
    cases h
  | succ n ih =>
    intro bk ps h
    simp only [bookTry] at h
    split_ifs at h <;>
      first
      | exact ih bk ps h
      | (cases hr : rangesP ((((bt.drop (n + 1) ++ l4).dropWhile
              (fun c => c == '.'))).dropWhile isWS) with
         | none =>
           rw [hr] at h
           exact ih bk ps h
         | some q =>
           obtain ⟨ps2, rf2⟩ := q
           rw [hr] at h
           have h1 := Option.some.inj h
           have hps : ps2 = ps := congrArg Prod.snd h1
           rw [hps] at hr
           exact ⟨_, rf2, hr⟩)

theorem fullMatch_sound (reference : String) (bk : String) (rgs : List Char)
    (h : fullMatch reference = some (bk, rgs)) :
    ∃ ps, PiecesOK ps ∧ rgs = joinPairs ps := by
  simp only [fullMatch] at h
  split at h
  · rename_i bk2 ps hb
    have h1 := Option.some.inj h
    refine ⟨ps, ?_, (congrArg Prod.snd h1).symm⟩
    obtain ⟨l2, rf, hr⟩ := bookTry_sound _ _ _ _ _ bk2 ps hb
    exact rangesP_sound l2 ps rf hr
  · cases h

theorem splitGo_pass : ∀ (X : List Char) (fuel : Nat) (acc rest : List Char),
    (∀ Z Y, Z ++ Y = X → Y ≠ [] → sepL (Y ++ rest) = none) →
    splitGo (X.length + fuel) acc (X ++ rest) = splitGo fuel (X.reverse ++ acc) rest := by
  intro X
  induction X with
  | nil =>
    intro fuel acc rest _
    simp
  | cons x X ih =>
    intro fuel acc rest hfail
    have h0 : sepL (x :: (X ++ rest)) = none := by
      have hh := hfail [] (x :: X) rfl (by simp)
      rwa [List.cons_append] at hh
    have heq : (x :: X).length + fuel = X.length + fuel + 1 := by
      rw [List.length_cons]
      omega
    rw [heq, List.cons_append, splitGo]
    simp only [h0]
    have hfail2 : ∀ Z Y, Z ++ Y = X → Y ≠ [] → sepL (Y ++ rest) = none := by
      intro Z Y hZY hY
      exact hfail (x :: Z) Y (by rw [List.cons_append, hZY]) hY
    have hrec := ih fuel (x :: acc) rest hfail2
    rw [List.reverse_cons, List.append_assoc]
    exact hrec

theorem splitGo_wsEnd : ∀ (W : List Char) (fuel : Nat) (acc : List Char),
    allWS W = true → splitGo (W.length + (fuel + 1)) acc W = [acc.reverse ++ W] := by
  intro W
  induction W with
  | nil =>
    intro fuel acc _
    simp [splitGo]
  | cons w W ih =>
    intro fuel acc hws
    have h0 : sepL (w :: W) = none := sepL_none_of_ws (w :: W) hws
    have hW : allWS W = true := by
      rw [allWS_iff] at hws ⊢
      intro ch hm
      exact hws ch (List.mem_cons_of_mem _ hm)
    have heq : (w :: W).length + (fuel + 1) = W.length + (fuel + 1) + 1 := by
      rw [List.length_cons]
      omega
    rw [heq, splitGo]
    simp only [h0]
    rw [ih fuel (w :: acc) hW, List.reverse_cons, List.append_assoc]
    rfl

theorem splitGo_cut (fuel : Nat) (acc L cL r : List Char) (hne : L ≠ [])
    (hL : sepL L = some (cL, r)) :
    splitGo (fuel + 1) acc L = acc.reverse :: splitGo fuel [] r := by
  cases L with
  | nil => exact absurd rfl hne
  | cons ch t =>
    rw [splitGo]
    simp only [hL]

theorem SepOK_len (s : List Char) (h : SepOK s) : 1 ≤ s.length := by
  obtain ⟨w1, tok, w2, hs, hw1, htok, hw2⟩ := h
  obtain ⟨x, t, hx, hxw⟩ := sepLTok_head tok htok
  subst hs
  rw [hx]
  simp only [List.length_append, List.length_cons]
  omega

theorem joinPairs_head (ps : List (List Char × List Char)) (h : PiecesOK ps) :
    ∃ x t, joinPairs ps = x :: t ∧ isDig x = true := by
  cases ps with
  | nil => cases h
  | cons p rest =>
    obtain ⟨c, s⟩ := p
    have hc : ClauseOK c := by
      cases rest with
      | nil => exact h.1
      | cons q rs => exact h.1
    obtain ⟨⟨d, t, hcd, hd⟩, _, _⟩ := hc
    refine ⟨d, t ++ (s ++ joinPairs rest), ?_, hd⟩
    simp only [joinPairs, List.foldr_cons]
    rw [hcd]
    simp [List.append_assoc]

theorem clause_sepL_fail (c rest : List Char) (hfree : ∀ ch ∈ c, sepLFree ch = true) :
    ∀ Z Y, Z ++ Y = trimTrail c → Y ≠ [] → sepL (Y ++ rest) = none := by
  intro Z Y hZY hY
  refine sepL_none_of_clause Y rest ?_ ?_
  · intro ch hch
    refine hfree ch (mem_trimTrail c ch ?_)
    rw [← hZY]
    exact List.mem_append_right _ hch
  · have hk : Z.length < (trimTrail c).length := by
      cases Y with
      | nil => exact absurd rfl hY
      | cons a t =>
        rw [← hZY, List.length_append, List.length_cons]
        omega
    have hdrop : (trimTrail c).drop Z.length = Y := by
      rw [← hZY, List.drop_left]
    have hn := trimTrail_drop_not_ws c Z.length hk
    rw [hdrop] at hn
    exact exists_nonws_of_not_allWS Y hn

theorem split_pieces : ∀ (ps : List (List Char × List Char)), PiecesOK ps →
    ∀ fuel, (joinPairs ps).length + 1 ≤ fuel →
    ∀ p ∈ splitGo fuel [] (joinPairs ps), matchRange p ≠ none := by
  intro ps
  induction ps with
  | nil => intro h; cases h
  | cons q rest ih =>
    obtain ⟨c, s⟩ := q
    intro hP fuel hfuel p hp
    have hc : ClauseOK c := by
      cases rest with
      | nil => exact hP.1
      | cons q2 rs => exact hP.1
    obtain ⟨⟨d, t, hcd, hd⟩, hfree, hrem⟩ := hc
    have hcsplit := trimTrail_append_wsTrail c
    have hlen : (trimTrail c).length + (wsTrail c).length = c.length := by
      rw [← List.length_append, hcsplit]
    cases rest with
    | nil =>
      have hs : s = [] := hP.2
      subst hs
      have hJ : joinPairs [(c, ([] : List Char))] = c := by simp [joinPairs]
      rw [hJ] at hfuel hp
      obtain ⟨k, hk⟩ : ∃ k, fuel = (trimTrail c).length + ((wsTrail c).length + (k + 1)) :=
        ⟨fuel - c.length - 1, by omega⟩
      rw [← hcsplit] at hp
      rw [hk] at hp
      rw [splitGo_pass (trimTrail c) ((wsTrail c).length + (k + 1)) [] (wsTrail c)
        (clause_sepL_fail c (wsTrail c) hfree)] at hp
      rw [splitGo_wsEnd (wsTrail c) k ((trimTrail c).reverse ++ [])
        (allWS_wsTrail c)] at hp
      rw [List.mem_singleton] at hp
      subst hp
      have hp2 : ((trimTrail c).reverse ++ ([] : List Char)).reverse ++ wsTrail c =
          trimTrail c ++ wsTrail c := by
        rw [List.append_nil, List.reverse_reverse]
      rw [hp2]
      exact hrem (wsTrail c) (allWS_wsTrail c)
    | cons q2 rs =>
      have hsOK : SepOK s := hP.2.1
      have hPrest : PiecesOK (q2 :: rs) := hP.2.2
      obtain ⟨w1, tok, w2, hseq, hw1, htokm, hw2⟩ := hsOK
      obtain ⟨xJ, tJ, hJeq, hxJ⟩ := joinPairs_head (q2 :: rs) hPrest
      have hJhead : ∀ x, (joinPairs (q2 :: rs)).head? = some x → isWS x = false := by
        intro x hx
        rw [hJeq, List.head?_cons, Option.some_inj] at hx
        subst hx
        exact isDig_not_ws _ hxJ
      have hJ : joinPairs ((c, s) :: q2 :: rs) = c ++ (s ++ joinPairs (q2 :: rs)) := by
        simp [joinPairs, List.append_assoc]
      rw [hJ] at hfuel hp
      have hslen : 1 ≤ s.length := SepOK_len s ⟨w1, tok, w2, hseq, hw1, htokm, hw2⟩
      have hfuel2 : c.length + (s.length + (joinPairs (q2 :: rs)).length) + 1 ≤ fuel := by
        simpa [List.length_append] using hfuel
      obtain ⟨k, hk, hkJ⟩ : ∃ k, fuel = (trimTrail c).length + (k + 1) ∧
          (joinPairs (q2 :: rs)).length + 1 ≤ k :=
        ⟨fuel - (trimTrail c).length - 1, by omega, by omega⟩
      have hin : c ++ (s ++ joinPairs (q2 :: rs)) =
          trimTrail c ++ (wsTrail c ++ (s ++ joinPairs (q2 :: rs))) := by
        conv_lhs => rw [← hcsplit]
        rw [List.append_assoc]
      rw [hk] at hp
      rw [hin] at hp
      rw [splitGo_pass (trimTrail c) (k + 1) [] (wsTrail c ++ (s ++ joinPairs (q2 :: rs)))
        (clause_sepL_fail c _ hfree)] at hp
      have hcut : sepL (wsTrail c ++ (s ++ joinPairs (q2 :: rs))) =
          some ((wsTrail c ++ w1) ++ (tok ++ w2), joinPairs (q2 :: rs)) := by
        have hrun := sepL_run (wsTrail c ++ w1) tok w2 (joinPairs (q2 :: rs))
          (by rw [allWS_append, allWS_wsTrail c, hw1]; rfl) htokm hw2 hJhead
        have heq2 : wsTrail c ++ (s ++ joinPairs (q2 :: rs)) =
            (wsTrail c ++ w1) ++ tok ++ (w2 ++ joinPairs (q2 :: rs)) := by
          rw [hseq]
          simp only [List.append_assoc]
        rw [heq2]
        exact hrun
      have hne : wsTrail c ++ (s ++ joinPairs (q2 :: rs)) ≠ [] := by
        intro hcon
        obtain ⟨h1, h2⟩ := List.append_eq_nil.1 hcon
        obtain ⟨h3, h4⟩ := List.append_eq_nil.1 h2
        rw [h3] at hslen
        simp at hslen
      rw [splitGo_cut k ((trimTrail c).reverse ++ []) _ _ _ hne hcut] at hp
      rcases List.mem_cons.1 hp with hp | hp
      · subst hp
        have hp2 : ((trimTrail c).reverse ++ ([] : List Char)).reverse =
            trimTrail c ++ [] := by
          rw [List.append_nil, List.reverse_reverse, List.append_nil]
        rw [hp2]
        exact hrem [] rfl
      · exact ih hPrest k hkJ p hp

theorem split_rematch (ps : List (List Char × List Char)) (h : PiecesOK ps) :
    ∀ p ∈ splitSepL (joinPairs ps), matchRange p ≠ none := by
  rw [splitSepL]
  exact split_pieces ps h ((joinPairs ps).length + 1) le_rfl

theorem processPieces_total (rm : List Char → Option RangeM) (books : List Nat) :
    ∀ (pieces : List (List Char)), (∀ p ∈ pieces, rm p ≠ none) →
    ∀ (st : Option Nat) (acc : List Ref),
      processPieces rm books pieces st acc ≠ none := by
  intro pieces
  induction pieces with
  | nil =>
    intro _ st acc h
    rw [processPieces] at h
    cases h
  | cons p ps ih =>
    intro hall st acc
    rw [processPieces]
    cases hr : rm p with
    | none => exact absurd hr (hall p (List.mem_cons_self _ _))
    | some m =>
      simp only [hr]
      exact ih (fun q hq => hall q (List.mem_cons_of_mem _ hq)) _ _

/-- C6: `parse_reference` raises no exception of its own: the result is never
`none` (in particular every piece produced by splitting the matched `ranges`
group on the list separator is matched by the anchored `range` pattern, so
`.group` is never called on a failed inner match), and the empty list is
returned when the full pattern does not match, when the book name resolves to
no book, and when the given `book_ref_id` is not in the bible. -/
theorem parse_never_fails (reference : String) (bible : Bible) (language_selection : Nat)
    (book_ref_id : Option Nat) :
    parse_reference reference bible language_selection book_ref_id ≠ none ∧
    (fullMatch reference = none →
      parse_reference reference bible language_selection book_ref_id = some []) ∧
    (∀ bk rgs, fullMatch reference = some (bk, rgs) → book_ref_id = none →
      bible.get_book_ref_id_by_localised_name bk language_selection = [] →
      parse_reference reference bible language_selection book_ref_id = some []) ∧
    (∀ bk rgs i, fullMatch reference = some (bk, rgs) → book_ref_id = some i →
      bible.get_book_by_book_ref_id i = false →
      parse_reference reference bible language_selection book_ref_id = some []) := by
  refine ⟨?_, ?_, ?_, ?_⟩
  · simp only [parse_reference, parse_reference_t, defaultTables]
    cases hf : fullMatch reference with
    | none => simp
    | some pr =>
      obtain ⟨bk, rgs⟩ := pr
      simp only [hf]
      split
      · simp
      · obtain ⟨ps, hP, hrgs⟩ := fullMatch_sound reference bk rgs hf
        subst hrgs
        exact processPieces_total matchRange _ _ (split_rematch ps hP) none []
  · intro h
    simp only [parse_reference, parse_reference_t, defaultTables, h]
  · intro bk rgs hf hb hlook
    simp [parse_reference, parse_reference_t, defaultTables, hf, hb, hlook]
  · intro bk rgs i hf hb hbook
    simp [parse_reference, parse_reference_t, defaultTables, hf, hb, hbook]

/-- C6 witness: a successful parse is not `none`, an unmatchable string and an
unknown book name both give the empty list, at concrete inputs. -/
theorem parse_never_fails_witness :
    parse_reference "John 3:16" demoBible 0 none ≠ none ∧
    parse_reference "????" demoBible 0 none = some [] ∧
    parse_reference "Mark 3" demoBible 0 none = some [] := by
  refine ⟨(parse_never_fails "John 3:16" demoBible 0 none).1, ?_, ?_⟩
  · exact (parse_never_fails "????" demoBible 0 none).2.1 (by decide)
  · exact (parse_never_fails "Mark 3" demoBible 0 none).2.2.1 "Mark" ['3']
      (by decide) rfl (by decide)

end VV
